import Mathlib

/-!
Shallow embedding of SudokuSolver.cpp.

The program stores a 9 x 9 Sudoku puzzle in a Grid of int (0 = unknown
value) and solves it by recursive backtracking in row-major order.
Constants of the source: PUZZLE_SIZE = 9, SUBGRID_SIZE = 3,
UNKOWN_VALUE = 0 (the source spells it this way); the numeric literals
below correspond to them.

The grid is modelled as a list of rows of integers; indexed access
returns an Option so that any out-of-range access is an explicit error
value (none), mirroring the contract that out-of-range Grid access is a
programming error.  Positions r, c are Int, as in the C++ source.
The recursion of attempt is driven by a fuel parameter that bounds the
recursion depth; the depth of the search is at most 82 frames (one per
grid position plus the terminal frame), so any fuel of at least 82
makes the fuel bound unreachable from the start position.
-/

/-- A Sudoku grid: rows of cell values.  Cell value 0 is the unknown
marker, as in the source. -/
abbrev Grid : Type := List (List Int)

/-- The grid has 9 rows of 9 cells each, as constructed by
Grid of int puzzle(PUZZLE_SIZE, PUZZLE_SIZE) in main. -/
def wfGrid (g : Grid) : Prop :=
  g.length = 9 ∧ ∀ row ∈ g, row.length = 9

instance (g : Grid) : Decidable (wfGrid g) := by
  unfold wfGrid
  infer_instance

/-- Grid.inBounds(r, c) for a 9 x 9 grid: both indices in [0, 9). -/
def inBounds (r c : Int) : Prop :=
  0 ≤ r ∧ r < 9 ∧ 0 ≤ c ∧ c < 9

instance (r c : Int) : Decidable (inBounds r c) := by
  unfold inBounds
  infer_instance

/-- Reading puzzle[r][c]: defined only for in-range coordinates of the
actual list structure; any other access is the error value none. -/
def gridGet (g : Grid) (r c : Int) : Option Int :=
  if inBounds r c then
    match List.get? g r.toNat with
    | none => none
    | some row => List.get? row c.toNat
  else none

/-- Writing puzzle[r][c] = v: defined only for in-range coordinates of
the actual list structure; any other access is the error value none. -/
def gridSet (g : Grid) (r c : Int) (v : Int) : Option Grid :=
  if inBounds r c then
    match List.get? g r.toNat with
    | none => none
    | some row =>
        if c.toNat < row.length then
          some (List.set g r.toNat (List.set row c.toNat v))
        else none
  else none

/-- Total cell reader used to state properties: the value of the cell
at row i, column j, with 0 outside the structure. -/
def cellOf (g : Grid) (i j : Nat) : Int :=
  (((List.get? g i).bind fun row => List.get? row j).getD 0)

/-- nextPos(r, c): increment c; wrap to the next row when c reaches 9. -/
def nextPos (r c : Int) : Int × Int :=
  if c + 1 = 9 then (r + 1, 0) else (r, c + 1)

/-- prevPos(r, c): decrement c; wrap to the previous row when c goes
below 0.  In the source it restores the local position variables after
a recursive call; in this functional embedding the position arguments
of a frame are immutable, so the function is recorded for completeness
of the model. -/
def prevPos (r c : Int) : Int × Int :=
  if c - 1 = -1 then (r - 1, 8) else (r, c - 1)

/-- The loop body of isDuplRow over the remaining column indices:
return true at the first index i with puzzle[r][i] == puzzle[r][c]
and i != c. -/
def rowLoop (g : Grid) (r c : Int) : List Int → Option Bool
  | [] => some false
  | i :: rest =>
      match gridGet g r i, gridGet g r c with
      | some x, some y => if x = y ∧ i ≠ c then some true else rowLoop g r c rest
      | _, _ => none

/-- The loop body of isDuplCol over the remaining row indices. -/
def colLoop (g : Grid) (r c : Int) : List Int → Option Bool
  | [] => some false
  | i :: rest =>
      match gridGet g i c, gridGet g r c with
      | some x, some y => if x = y ∧ i ≠ r then some true else colLoop g r c rest
      | _, _ => none

/-- Loop indices 0..8, as in for (int i = 0; i < PUZZLE_SIZE; i++). -/
def intRange9 : List Int := [0, 1, 2, 3, 4, 5, 6, 7, 8]

/-- isDuplRow(puzzle, r, c): true when some other column of row r
holds the value of (r, c). -/
def isDuplRow (g : Grid) (r c : Int) : Option Bool :=
  rowLoop g r c intRange9

/-- isDuplCol(puzzle, r, c): true when some other row of column c
holds the value of (r, c). -/
def isDuplCol (g : Grid) (r c : Int) : Option Bool :=
  colLoop g r c intRange9

/-- The loop body of isDuplSubGrid over the remaining block cells: the
source condition is r != row && c != col && puzzle[r][c] == puzzle[row][col],
with short-circuit evaluation, so the grid is only read when both
coordinates differ. -/
def subLoop (g : Grid) (r c : Int) : List (Int × Int) → Option Bool
  | [] => some false
  | (row, col) :: rest =>
      if r ≠ row ∧ c ≠ col then
        match gridGet g r c, gridGet g row col with
        | some x, some y => if x = y then some true else subLoop g r c rest
        | _, _ => none
      else subLoop g r c rest

/-- The nine cells of the sub-block of (r, c) in the row-major order in
which the two nested loops of isDuplSubGrid visit them.  The C++
division truncates toward zero, which is Int.tdiv. -/
def blockList (r c : Int) : List (Int × Int) :=
  let sr := 3 * (Int.tdiv r 3)
  let sc := 3 * (Int.tdiv c 3)
  [(sr, sc), (sr, sc + 1), (sr, sc + 2),
   (sr + 1, sc), (sr + 1, sc + 1), (sr + 1, sc + 2),
   (sr + 2, sc), (sr + 2, sc + 1), (sr + 2, sc + 2)]

/-- isDuplSubGrid(puzzle, r, c): true when some cell of the sub-block
of (r, c) differing from (r, c) in both coordinates holds the value of
(r, c). -/
def isDuplSubGrid (g : Grid) (r c : Int) : Option Bool :=
  subLoop g r c (blockList r c)

/-- isValid(puzzle, r, c) = !(isDuplRow || isDuplCol || isDuplSubGrid),
with the short-circuit order of the source. -/
def isValid (g : Grid) (r c : Int) : Option Bool :=
  match isDuplRow g r c with
  | none => none
  | some true => some false
  | some false =>
      match isDuplCol g r c with
      | none => none
      | some true => some false
      | some false =>
          match isDuplSubGrid g r c with
          | none => none
          | some b => some (!b)

/-- The candidate loop of attempt at an unknown cell (r, c):
for i = 1..9, assign puzzle[r][c] = i; if isValid, recurse at the next
position (the recursive attempt is the function argument att); a
successful recursion ends the loop at once (later iterations of the
source loop are no-ops once solved is true); a failed recursion
continues with the grid the recursion returned; when the candidates
are exhausted the cell is reset to the unknown value 0. -/
def candLoop (att : Grid → Int → Int → Option (Bool × Grid)) (r c : Int) :
    Grid → List Int → Option (Bool × Grid)
  | g, [] =>
      match gridSet g r c 0 with
      | none => none
      | some g2 => some (false, g2)
  | g, i :: rest =>
      match gridSet g r c i with
      | none => none
      | some g1 =>
          match isValid g1 r c with
          | none => none
          | some false => candLoop att r c g1 rest
          | some true =>
              match att g1 (nextPos r c).1 (nextPos r c).2 with
              | none => none
              | some (true, g2) => some (true, g2)
              | some (false, g2) => candLoop att r c g2 rest

/-- attempt(puzzle, r, c) with an explicit fuel bounding the recursion
depth: out of bounds, succeed exactly when the final cell (8, 8) is
valid; at a pre-filled cell, advance; at an unknown cell, run the
candidate loop. -/
def attempt : Nat → Grid → Int → Int → Option (Bool × Grid)
  | 0, _, _, _ => none
  | fuel + 1, g, r, c =>
      if inBounds r c then
        match gridGet g r c with
        | none => none
        | some v =>
            if v = 0 then
              candLoop (fun g2 r2 c2 => attempt fuel g2 r2 c2) r c g
                [1, 2, 3, 4, 5, 6, 7, 8, 9]
            else
              attempt fuel g (nextPos r c).1 (nextPos r c).2
      else
        match isValid g 8 8 with
        | none => none
        | some b => some (b, g)

/-- Fuel sufficient for the whole search: the recursion depth from any
position is at most 82 frames. -/
def solveFuel : Nat := 100

/-- attempt as called by the program, with sufficient fuel. -/
def attemptMain (g : Grid) (r c : Int) : Option (Bool × Grid) :=
  attempt solveFuel g r c

/-- solve(puzzle) = attempt(puzzle, 0, 0), returning the success flag
together with the final state of the grid. -/
def solve (g : Grid) : Option (Bool × Grid) :=
  attemptMain g 0 0

/-! ## Specification-side predicates -/

/-- Row-major index of a position: 9 r + c for an in-bounds position,
81 for any out-of-bounds position (the search is past the last cell). -/
def posIdx (r c : Int) : Nat :=
  if inBounds r c then (9 * r + c).toNat else 81

/-- Two cells lie in a common row, a common column, or a common 3 x 3
sub-block. -/
def sameUnit (i1 j1 i2 j2 : Nat) : Prop :=
  i1 = i2 ∨ j1 = j2 ∨ (i1 / 3 = i2 / 3 ∧ j1 / 3 = j2 / 3)

instance (i1 j1 i2 j2 : Nat) : Decidable (sameUnit i1 j1 i2 j2) := by
  unfold sameUnit
  infer_instance

/-- The cell function f with the cell (a, b) erased to the unknown
value 0. -/
def eraseAt (f : Nat → Nat → Int) (a b : Nat) : Nat → Nat → Int :=
  fun i j => if i = a ∧ j = b then 0 else f i j

/-- Every pair of distinct filled cells of a common unit holds
distinct values (formulated over an arbitrary cell function). -/
def ConsistentF (f : Nat → Nat → Int) : Prop :=
  ∀ i1, i1 < 9 → ∀ j1, j1 < 9 → ∀ i2, i2 < 9 → ∀ j2, j2 < 9 →
    ¬(i1 = i2 ∧ j1 = j2) → sameUnit i1 j1 i2 j2 →
    f i1 j1 ≠ 0 → f i2 j2 ≠ 0 → f i1 j1 ≠ f i2 j2

/-- Every pair of distinct filled cells of the grid lying in a common
row, column or sub-block holds distinct values. -/
def Consistent (g : Grid) : Prop := ConsistentF (cellOf g)

/-- Decidability of a bounded universal over the 9 indices, through the
efficient recursive decision procedure of the Nat library. -/
instance decBallLtNine (P : Nat → Prop) [DecidablePred P] :
    Decidable (∀ m, m < 9 → P m) :=
  Nat.decidableBallLT 9 (fun m _ => P m)

instance (g : Grid) : Decidable (Consistent g) := by
  unfold Consistent ConsistentF
  infer_instance

/-- No other cell of a common unit holds the value of cell (a, b). -/
def NoConflictAt (g : Grid) (a b : Nat) : Prop :=
  ∀ i2, i2 < 9 → ∀ j2, j2 < 9 → ¬(i2 = a ∧ j2 = b) → sameUnit a b i2 j2 →
    cellOf g i2 j2 ≠ cellOf g a b

instance (g : Grid) (a b : Nat) : Decidable (NoConflictAt g a b) := by
  unfold NoConflictAt
  infer_instance

/-- Decidability of a bounded existential over the 9 indices. -/
instance decExistsLtNine (P : Nat → Prop) [DecidablePred P] :
    Decidable (∃ m, m < 9 ∧ P m) :=
  Nat.decidableExistsLT 9

/-! ## Basic grid lemmas -/

theorem set_of_get? {α} {l : List α} {n : Nat} {a : α}
    (h : List.get? l n = some a) : List.set l n a = l := by
  have hn : n < l.length := by
    by_contra hle
    rw [List.get?_eq_none.mpr (Nat.le_of_not_lt hle)] at h
    exact Option.noConfusion h
  apply List.ext_get?
  intro m
  by_cases hm : m = n
  · subst hm
    rw [List.get?_set_eq_of_lt _ hn, h]
  · rw [List.get?_set_ne _ _ (Ne.symm hm)]

theorem gridGet_eq_some {g : Grid} {r c : Int} {x : Int} :
    gridGet g r c = some x ↔
    inBounds r c ∧ ∃ row, List.get? g r.toNat = some row ∧
      List.get? row c.toNat = some x := by
  constructor
  · intro h
    unfold gridGet at h
    split at h
    · rename_i hb
      split at h
      · exact Option.noConfusion h
      · rename_i row hrow
        exact ⟨hb, row, hrow, h⟩
    · exact Option.noConfusion h
  · rintro ⟨hb, row, hrow, hx⟩
    unfold gridGet
    rw [if_pos hb]
    simp only [hrow]
    exact hx

theorem gridSet_eq_some {g : Grid} {r c v : Int} {g2 : Grid} :
    gridSet g r c v = some g2 ↔
    inBounds r c ∧ ∃ row, List.get? g r.toNat = some row ∧
      c.toNat < row.length ∧
      g2 = List.set g r.toNat (List.set row c.toNat v) := by
  constructor
  · intro h
    unfold gridSet at h
    split at h
    · rename_i hb
      split at h
      · exact Option.noConfusion h
      · rename_i row hrow
        split at h
        · rename_i hlen
          exact ⟨hb, row, hrow, hlen, (Option.some_inj.mp h).symm⟩
        · exact Option.noConfusion h
    · exact Option.noConfusion h
  · rintro ⟨hb, row, hrow, hlen, hg2⟩
    unfold gridSet
    rw [if_pos hb]
    simp only [hrow]
    rw [if_pos hlen, hg2]

theorem get?_of_lt_length {α} {l : List α} {n : Nat} (h : n < l.length) :
    ∃ a, List.get? l n = some a :=
  ⟨l.get ⟨n, h⟩, List.get?_eq_get h⟩

theorem lt_length_of_get? {α} {l : List α} {n : Nat} {a : α}
    (h : List.get? l n = some a) : n < l.length := by
  by_contra hle
  rw [List.get?_eq_none.mpr (Nat.le_of_not_lt hle)] at h
  exact Option.noConfusion h

theorem cellOf_of_get? {g : Grid} {i j : Nat} {row : List Int} {x : Int}
    (hrow : List.get? g i = some row) (hx : List.get? row j = some x) :
    cellOf g i j = x := by
  unfold cellOf
  rw [hrow, Option.some_bind, hx]
  rfl

theorem gridGet_some {g : Grid} {r c : Int} {x : Int}
    (h : gridGet g r c = some x) :
    inBounds r c ∧ x = cellOf g r.toNat c.toNat := by
  obtain ⟨hb, row, hrow, hx⟩ := gridGet_eq_some.mp h
  exact ⟨hb, (cellOf_of_get? hrow hx).symm⟩

theorem gridGet_wf {g : Grid} (hw : wfGrid g) {r c : Int}
    (hb : inBounds r c) :
    gridGet g r c = some (cellOf g r.toNat c.toNat) := by
  obtain ⟨hlen, hrows⟩ := hw
  obtain ⟨hr0, hr9, hc0, hc9⟩ := hb
  have hrn : r.toNat < g.length := by omega
  obtain ⟨row, hrow⟩ := get?_of_lt_length hrn
  have hrlen : row.length = 9 := hrows row (List.get?_mem hrow)
  obtain ⟨x, hx⟩ := get?_of_lt_length (l := row) (n := c.toNat) (by omega)
  rw [gridGet_eq_some]
  exact ⟨⟨hr0, hr9, hc0, hc9⟩, row, hrow, by rw [cellOf_of_get? hrow hx]; exact hx⟩

theorem gridSet_wf {g : Grid} (hw : wfGrid g) {r c : Int}
    (hb : inBounds r c) (v : Int) :
    ∃ g2, gridSet g r c v = some g2 := by
  obtain ⟨hlen, hrows⟩ := hw
  obtain ⟨hr0, hr9, hc0, hc9⟩ := hb
  have hrn : r.toNat < g.length := by omega
  obtain ⟨row, hrow⟩ := get?_of_lt_length hrn
  have hrlen : row.length = 9 := hrows row (List.get?_mem hrow)
  exact ⟨_, gridSet_eq_some.mpr
    ⟨⟨hr0, hr9, hc0, hc9⟩, row, hrow, by omega, rfl⟩⟩

theorem gridSet_some {g : Grid} {r c v : Int} {g2 : Grid}
    (h : gridSet g r c v = some g2) :
    inBounds r c ∧
    (∀ i j : Nat, cellOf g2 i j =
      if i = r.toNat ∧ j = c.toNat then v else cellOf g i j) ∧
    g2.length = g.length ∧
    (wfGrid g → wfGrid g2) := by
  obtain ⟨hb, row, hrow, hclen, hg2⟩ := gridSet_eq_some.mp h
  have hrn : r.toNat < g.length := lt_length_of_get? hrow
  refine ⟨hb, ?_, ?_, ?_⟩
  · intro i j
    by_cases hi : i = r.toNat
    · subst hi
      by_cases hj : j = c.toNat
      · subst hj
        rw [if_pos ⟨rfl, rfl⟩, hg2]
        exact cellOf_of_get? (List.get?_set_eq_of_lt _ hrn)
          (List.get?_set_eq_of_lt _ hclen)
      · rw [if_neg (fun hc => hj hc.2)]
        unfold cellOf
        rw [hg2, List.get?_set_eq_of_lt _ hrn, Option.some_bind,
          List.get?_set_ne _ _ (fun hx => hj hx.symm), hrow,
          Option.some_bind]
    · rw [if_neg (fun hc => hi hc.1)]
      unfold cellOf
      rw [hg2, List.get?_set_ne _ _ (fun hx => hi hx.symm)]
  · rw [hg2, List.length_set]
  · intro hw
    obtain ⟨hlen, hrows⟩ := hw
    constructor
    · rw [hg2, List.length_set, hlen]
    · intro row2 hrow2
      rw [hg2] at hrow2
      rcases List.mem_or_eq_of_mem_set hrow2 with h1 | h1
      · exact hrows row2 h1
      · subst h1
        rw [List.length_set]
        exact hrows row (List.get?_mem hrow)

theorem gridSet_gridSet {g : Grid} {r c v : Int} {g1 : Grid}
    (h : gridSet g r c v = some g1) (w : Int) :
    gridSet g1 r c w = gridSet g r c w := by
  obtain ⟨hb, row, hrow, hclen, hg1⟩ := gridSet_eq_some.mp h
  have hrn : r.toNat < g.length := lt_length_of_get? hrow
  have hrow1 : List.get? g1 r.toNat = some (List.set row c.toNat v) := by
    rw [hg1]
    exact List.get?_set_eq_of_lt _ hrn
  have hlhs : gridSet g1 r c w =
      some (List.set g1 r.toNat (List.set (List.set row c.toNat v) c.toNat w)) :=
    gridSet_eq_some.mpr ⟨hb, _, hrow1, by rw [List.length_set]; exact hclen, rfl⟩
  have hrhs : gridSet g r c w =
      some (List.set g r.toNat (List.set row c.toNat w)) :=
    gridSet_eq_some.mpr ⟨hb, row, hrow, hclen, rfl⟩
  rw [hlhs, hrhs, hg1, List.set_set, List.set_set]

theorem gridSet_cancel {g : Grid} {r c v : Int} {g2 : Grid}
    (hv : gridGet g r c = some v) (h : gridSet g r c v = some g2) :
    g2 = g := by
  obtain ⟨hb, row, hrow, hclen, hg2⟩ := gridSet_eq_some.mp h
  obtain ⟨hb2, row2, hrow2, hx⟩ := gridGet_eq_some.mp hv
  rw [hrow] at hrow2
  have hrr : row = row2 := Option.some_inj.mp hrow2
  subst hrr
  rw [hg2, set_of_get? hx, set_of_get? hrow]

/-! ## Position lemmas -/

theorem posIdx_inBounds {r c : Int} (hb : inBounds r c) :
    posIdx r c = 9 * r.toNat + c.toNat := by
  unfold posIdx
  rw [if_pos hb]
  obtain ⟨h1, h2, h3, h4⟩ := hb
  omega

theorem posIdx_le (r c : Int) : posIdx r c ≤ 81 := by
  unfold posIdx
  split
  · rename_i hb
    obtain ⟨h1, h2, h3, h4⟩ := hb
    omega
  · omega

theorem posIdx_nextPos {r c : Int} (hb : inBounds r c) :
    posIdx (nextPos r c).1 (nextPos r c).2 = posIdx r c + 1 := by
  obtain ⟨h1, h2, h3, h4⟩ := hb
  by_cases hc : c + 1 = 9
  · simp only [nextPos, if_pos hc]
    unfold posIdx inBounds
    split_ifs <;> omega
  · simp only [nextPos, if_neg hc]
    unfold posIdx inBounds
    split_ifs <;> omega

/-! ## Characterization of the duplicate checks -/

theorem mem_intRange9 {i : Int} : i ∈ intRange9 ↔ 0 ≤ i ∧ i < 9 := by
  simp only [intRange9, List.mem_cons, List.not_mem_nil, or_false]
  omega

theorem rowLoop_wf {g : Grid} (hw : wfGrid g) {r c : Int}
    (hb : inBounds r c) (L : List Int) (hL : ∀ i ∈ L, 0 ≤ i ∧ i < 9) :
    rowLoop g r c L = some (decide (∃ i ∈ L,
      cellOf g r.toNat i.toNat = cellOf g r.toNat c.toNat ∧ i ≠ c)) := by
  induction L with
  | nil => simp [rowLoop]
  | cons i rest ih =>
      obtain ⟨hi0, hi9⟩ := hL i (List.mem_cons_self i rest)
      have hbi : inBounds r i := ⟨hb.1, hb.2.1, hi0, hi9⟩
      rw [show rowLoop g r c (i :: rest) =
        (match gridGet g r i, gridGet g r c with
         | some x, some y =>
            if x = y ∧ i ≠ c then some true else rowLoop g r c rest
         | _, _ => none) from rfl]
      rw [gridGet_wf hw hbi, gridGet_wf hw hb]
      by_cases hcond : cellOf g r.toNat i.toNat = cellOf g r.toNat c.toNat ∧ i ≠ c
      · simp only [if_pos hcond]
        have : (∃ x ∈ i :: rest,
            cellOf g r.toNat x.toNat = cellOf g r.toNat c.toNat ∧ x ≠ c) := by
          exact ⟨i, List.mem_cons_self i rest, hcond⟩
        rw [show decide (∃ x ∈ i :: rest,
          cellOf g r.toNat x.toNat = cellOf g r.toNat c.toNat ∧ x ≠ c) = true
          from decide_eq_true this]
      · simp only [if_neg hcond]
        rw [ih (fun x hx => hL x (List.mem_cons_of_mem i hx))]
        congr 1
        rw [decide_eq_decide]
        constructor
        · rintro ⟨x, hx, h1, h2⟩
          exact ⟨x, List.mem_cons_of_mem i hx, h1, h2⟩
        · rintro ⟨x, hx, h1, h2⟩
          rcases List.mem_cons.mp hx with h3 | h3
          · exact absurd (h3 ▸ And.intro h1 h2) hcond
          · exact ⟨x, h3, h1, h2⟩

theorem colLoop_wf {g : Grid} (hw : wfGrid g) {r c : Int}
    (hb : inBounds r c) (L : List Int) (hL : ∀ i ∈ L, 0 ≤ i ∧ i < 9) :
    colLoop g r c L = some (decide (∃ i ∈ L,
      cellOf g i.toNat c.toNat = cellOf g r.toNat c.toNat ∧ i ≠ r)) := by
  induction L with
  | nil => simp [colLoop]
  | cons i rest ih =>
      obtain ⟨hi0, hi9⟩ := hL i (List.mem_cons_self i rest)
      have hbi : inBounds i c := ⟨hi0, hi9, hb.2.2.1, hb.2.2.2⟩
      rw [show colLoop g r c (i :: rest) =
        (match gridGet g i c, gridGet g r c with
         | some x, some y =>
            if x = y ∧ i ≠ r then some true else colLoop g r c rest
         | _, _ => none) from rfl]
      rw [gridGet_wf hw hbi, gridGet_wf hw hb]
      by_cases hcond : cellOf g i.toNat c.toNat = cellOf g r.toNat c.toNat ∧ i ≠ r
      · simp only [if_pos hcond]
        have : (∃ x ∈ i :: rest,
            cellOf g x.toNat c.toNat = cellOf g r.toNat c.toNat ∧ x ≠ r) := by
          exact ⟨i, List.mem_cons_self i rest, hcond⟩
        rw [show decide (∃ x ∈ i :: rest,
          cellOf g x.toNat c.toNat = cellOf g r.toNat c.toNat ∧ x ≠ r) = true
          from decide_eq_true this]
      · simp only [if_neg hcond]
        rw [ih (fun x hx => hL x (List.mem_cons_of_mem i hx))]
        congr 1
        rw [decide_eq_decide]
        constructor
        · rintro ⟨x, hx, h1, h2⟩
          exact ⟨x, List.mem_cons_of_mem i hx, h1, h2⟩
        · rintro ⟨x, hx, h1, h2⟩
          rcases List.mem_cons.mp hx with h3 | h3
          · exact absurd (h3 ▸ And.intro h1 h2) hcond
          · exact ⟨x, h3, h1, h2⟩

theorem subLoop_wf {g : Grid} (hw : wfGrid g) {r c : Int}
    (hb : inBounds r c) (L : List (Int × Int))
    (hL : ∀ p ∈ L, 0 ≤ p.1 ∧ p.1 < 9 ∧ 0 ≤ p.2 ∧ p.2 < 9) :
    subLoop g r c L = some (decide (∃ p ∈ L, r ≠ p.1 ∧ c ≠ p.2 ∧
      cellOf g r.toNat c.toNat = cellOf g p.1.toNat p.2.toNat)) := by
  induction L with
  | nil => simp [subLoop]
  | cons p rest ih =>
      obtain ⟨row, col⟩ := p
      obtain ⟨hp1, hp2, hp3, hp4⟩ := hL (row, col) (List.mem_cons_self _ rest)
      have hbp : inBounds row col := ⟨hp1, hp2, hp3, hp4⟩
      rw [show subLoop g r c ((row, col) :: rest) =
        (if r ≠ row ∧ c ≠ col then
          match gridGet g r c, gridGet g row col with
          | some x, some y => if x = y then some true else subLoop g r c rest
          | _, _ => none
         else subLoop g r c rest) from rfl]
      by_cases hne : r ≠ row ∧ c ≠ col
      · rw [if_pos hne, gridGet_wf hw hb, gridGet_wf hw hbp]
        by_cases hcond : cellOf g r.toNat c.toNat = cellOf g row.toNat col.toNat
        · simp only [if_pos hcond]
          have : (∃ p ∈ (row, col) :: rest, r ≠ p.1 ∧ c ≠ p.2 ∧
              cellOf g r.toNat c.toNat = cellOf g p.1.toNat p.2.toNat) :=
            ⟨(row, col), List.mem_cons_self _ rest, hne.1, hne.2, hcond⟩
          rw [show decide (∃ p ∈ (row, col) :: rest, r ≠ p.1 ∧ c ≠ p.2 ∧
            cellOf g r.toNat c.toNat = cellOf g p.1.toNat p.2.toNat) = true
            from decide_eq_true this]
        · simp only [if_neg hcond]
          rw [ih (fun x hx => hL x (List.mem_cons_of_mem _ hx))]
          congr 1
          rw [decide_eq_decide]
          constructor
          · rintro ⟨x, hx, h1, h2, h3⟩
            exact ⟨x, List.mem_cons_of_mem _ hx, h1, h2, h3⟩
          · rintro ⟨x, hx, h1, h2, h3⟩
            rcases List.mem_cons.mp hx with h4 | h4
            · exact absurd (by rw [h4] at h3; exact h3) hcond
            · exact ⟨x, h4, h1, h2, h3⟩
      · rw [if_neg hne]
        rw [ih (fun x hx => hL x (List.mem_cons_of_mem _ hx))]
        congr 1
        rw [decide_eq_decide]
        constructor
        · rintro ⟨x, hx, h1, h2, h3⟩
          exact ⟨x, List.mem_cons_of_mem _ hx, h1, h2, h3⟩
        · rintro ⟨x, hx, h1, h2, h3⟩
          rcases List.mem_cons.mp hx with h4 | h4
          · subst h4
            exact absurd ⟨h1, h2⟩ hne
          · exact ⟨x, h4, h1, h2, h3⟩

theorem isDuplRow_wf {g : Grid} (hw : wfGrid g) {r c : Int}
    (hb : inBounds r c) :
    isDuplRow g r c = some (decide (∃ j2, j2 < 9 ∧ j2 ≠ c.toNat ∧
      cellOf g r.toNat j2 = cellOf g r.toNat c.toNat)) := by
  unfold isDuplRow
  rw [rowLoop_wf hw hb intRange9 (fun i hi => mem_intRange9.mp hi)]
  congr 1
  rw [decide_eq_decide]
  obtain ⟨h1, h2, h3, h4⟩ := hb
  constructor
  · rintro ⟨i, hi, hcell, hne⟩
    obtain ⟨hi0, hi9⟩ := mem_intRange9.mp hi
    exact ⟨i.toNat, by omega, by omega, hcell⟩
  · rintro ⟨j2, hj9, hne, hcell⟩
    refine ⟨(j2 : Int), mem_intRange9.mpr (by omega), ?_, by omega⟩
    rw [Int.toNat_natCast]
    exact hcell

theorem isDuplCol_wf {g : Grid} (hw : wfGrid g) {r c : Int}
    (hb : inBounds r c) :
    isDuplCol g r c = some (decide (∃ i2, i2 < 9 ∧ i2 ≠ r.toNat ∧
      cellOf g i2 c.toNat = cellOf g r.toNat c.toNat)) := by
  unfold isDuplCol
  rw [colLoop_wf hw hb intRange9 (fun i hi => mem_intRange9.mp hi)]
  congr 1
  rw [decide_eq_decide]
  obtain ⟨h1, h2, h3, h4⟩ := hb
  constructor
  · rintro ⟨i, hi, hcell, hne⟩
    obtain ⟨hi0, hi9⟩ := mem_intRange9.mp hi
    exact ⟨i.toNat, by omega, by omega, hcell⟩
  · rintro ⟨i2, hi9, hne, hcell⟩
    refine ⟨(i2 : Int), mem_intRange9.mpr (by omega), ?_, by omega⟩
    rw [Int.toNat_natCast]
    exact hcell

set_option maxHeartbeats 1000000 in
theorem mem_blockList {r c : Int} (hb : inBounds r c) {p : Int × Int} :
    p ∈ blockList r c ↔
      0 ≤ p.1 ∧ p.1 < 9 ∧ 0 ≤ p.2 ∧ p.2 < 9 ∧
      p.1.toNat / 3 = r.toNat / 3 ∧ p.2.toNat / 3 = c.toNat / 3 := by
  obtain ⟨h1, h2, h3, h4⟩ := hb
  obtain ⟨p1, p2⟩ := p
  have hdr : Int.tdiv r 3 = r / 3 := Int.tdiv_eq_ediv h1 (by norm_num)
  have hdc : Int.tdiv c 3 = c / 3 := Int.tdiv_eq_ediv h3 (by norm_num)
  simp only [blockList, hdr, hdc, List.mem_cons, List.not_mem_nil, or_false,
    Prod.mk.injEq]
  omega

theorem isDuplSubGrid_wf {g : Grid} (hw : wfGrid g) {r c : Int}
    (hb : inBounds r c) :
    isDuplSubGrid g r c = some (decide (∃ i2, i2 < 9 ∧ ∃ j2, j2 < 9 ∧
      i2 / 3 = r.toNat / 3 ∧ j2 / 3 = c.toNat / 3 ∧
      i2 ≠ r.toNat ∧ j2 ≠ c.toNat ∧
      cellOf g i2 j2 = cellOf g r.toNat c.toNat)) := by
  unfold isDuplSubGrid
  rw [subLoop_wf hw hb (blockList r c)
    (fun p hp => by
      obtain ⟨a1, a2, a3, a4, a5, a6⟩ := (mem_blockList hb).mp hp
      exact ⟨a1, a2, a3, a4⟩)]
  congr 1
  rw [decide_eq_decide]
  obtain ⟨h1, h2, h3, h4⟩ := hb
  constructor
  · rintro ⟨p, hp, hne1, hne2, hcell⟩
    obtain ⟨a1, a2, a3, a4, a5, a6⟩ := (mem_blockList ⟨h1, h2, h3, h4⟩).mp hp
    exact ⟨p.1.toNat, by omega, p.2.toNat, by omega, a5, a6,
      by omega, by omega, hcell.symm⟩
  · rintro ⟨i2, hi9, j2, hj9, hdiv1, hdiv2, hne1, hne2, hcell⟩
    refine ⟨((i2 : Int), (j2 : Int)), (mem_blockList ⟨h1, h2, h3, h4⟩).mpr
      ⟨by omega, by omega, by omega, by omega, by simpa using hdiv1,
        by simpa using hdiv2⟩, by omega, by omega, ?_⟩
    simpa using hcell.symm

theorem isValid_wf {g : Grid} (hw : wfGrid g) {r c : Int}
    (hb : inBounds r c) :
    isValid g r c = some (decide (NoConflictAt g r.toNat c.toNat)) := by
  unfold isValid
  rw [isDuplRow_wf hw hb, isDuplCol_wf hw hb, isDuplSubGrid_wf hw hb]
  obtain ⟨hr0, hr9, hc0, hc9⟩ := hb
  by_cases hrow : ∃ j2, j2 < 9 ∧ j2 ≠ c.toNat ∧
      cellOf g r.toNat j2 = cellOf g r.toNat c.toNat
  · rw [show decide (∃ j2, j2 < 9 ∧ j2 ≠ c.toNat ∧
      cellOf g r.toNat j2 = cellOf g r.toNat c.toNat) = true from decide_eq_true hrow]
    have : ¬ NoConflictAt g r.toNat c.toNat := by
      obtain ⟨j2, hj9, hne, hcell⟩ := hrow
      intro hno
      exact hno r.toNat (by omega) j2 hj9 (fun hc => hne hc.2)
        (Or.inl rfl) hcell
    simp [this]
  · rw [show decide (∃ j2, j2 < 9 ∧ j2 ≠ c.toNat ∧
      cellOf g r.toNat j2 = cellOf g r.toNat c.toNat) = false
      from decide_eq_false hrow]
    by_cases hcol : ∃ i2, i2 < 9 ∧ i2 ≠ r.toNat ∧
        cellOf g i2 c.toNat = cellOf g r.toNat c.toNat
    · rw [show decide (∃ i2, i2 < 9 ∧ i2 ≠ r.toNat ∧
        cellOf g i2 c.toNat = cellOf g r.toNat c.toNat) = true
        from decide_eq_true hcol]
      have : ¬ NoConflictAt g r.toNat c.toNat := by
        obtain ⟨i2, hi9, hne, hcell⟩ := hcol
        intro hno
        exact hno i2 hi9 c.toNat (by omega) (fun hc => hne hc.1)
          (Or.inr (Or.inl rfl)) hcell
      simp [this]
    · rw [show decide (∃ i2, i2 < 9 ∧ i2 ≠ r.toNat ∧
        cellOf g i2 c.toNat = cellOf g r.toNat c.toNat) = false
        from decide_eq_false hcol]
      by_cases hsub : ∃ i2, i2 < 9 ∧ ∃ j2, j2 < 9 ∧
          i2 / 3 = r.toNat / 3 ∧ j2 / 3 = c.toNat / 3 ∧
          i2 ≠ r.toNat ∧ j2 ≠ c.toNat ∧
          cellOf g i2 j2 = cellOf g r.toNat c.toNat
      · rw [show decide (∃ i2, i2 < 9 ∧ ∃ j2, j2 < 9 ∧
          i2 / 3 = r.toNat / 3 ∧ j2 / 3 = c.toNat / 3 ∧
          i2 ≠ r.toNat ∧ j2 ≠ c.toNat ∧
          cellOf g i2 j2 = cellOf g r.toNat c.toNat) = true
          from decide_eq_true hsub]
        have : ¬ NoConflictAt g r.toNat c.toNat := by
          obtain ⟨i2, hi9, j2, hj9, hd1, hd2, hne1, hne2, hcell⟩ := hsub
          intro hno
          exact hno i2 hi9 j2 hj9 (fun hc => hne1 hc.1)
            (Or.inr (Or.inr ⟨hd1.symm, hd2.symm⟩)) hcell
        simp [this]
      · rw [show decide (∃ i2, i2 < 9 ∧ ∃ j2, j2 < 9 ∧
          i2 / 3 = r.toNat / 3 ∧ j2 / 3 = c.toNat / 3 ∧
          i2 ≠ r.toNat ∧ j2 ≠ c.toNat ∧
          cellOf g i2 j2 = cellOf g r.toNat c.toNat) = false
          from decide_eq_false hsub]
        have : NoConflictAt g r.toNat c.toNat := by
          intro i2 hi9 j2 hj9 hne hsame hcell
          rcases hsame with heq | heq | ⟨hd1, hd2⟩
          · exact hrow ⟨j2, hj9, fun hj => hne ⟨heq.symm, hj⟩, heq ▸ hcell⟩
          · exact hcol ⟨i2, hi9, fun hi => hne ⟨hi, heq.symm⟩, heq ▸ hcell⟩
          · by_cases hi : i2 = r.toNat
            · exact hrow ⟨j2, hj9, fun hj => hne ⟨hi, hj⟩, hi ▸ hcell⟩
            · by_cases hj : j2 = c.toNat
              · exact hcol ⟨i2, hi9, hi, hj ▸ hcell⟩
              · exact hsub ⟨i2, hi9, j2, hj9, hd1.symm, hd2.symm, hi, hj, hcell⟩
        simp [this]

/-- Equality of packed results, split into components. -/
theorem someResult_eq {a c : Bool} {b d : Grid}
    (h : some (a, b) = some (c, d)) : a = c ∧ b = d := by
  have h2 := Option.some_inj.mp h
  exact ⟨congrArg Prod.fst h2, congrArg Prod.snd h2⟩

/-! ## Failure restores the grid -/

theorem candLoop_false_aux (att : Grid → Int → Int → Option (Bool × Grid))
    (hatt : ∀ g1 r1 c1 g3, att g1 r1 c1 = some (false, g3) → g3 = g1)
    (r c : Int) :
    ∀ (L : List Int) (g g2 : Grid),
      candLoop att r c g L = some (false, g2) → gridSet g r c 0 = some g2 := by
  intro L
  induction L with
  | nil =>
      intro g g2 h
      simp only [candLoop] at h
      split at h
      · exact Option.noConfusion h
      · rename_i g3 hset
        rw [hset, (someResult_eq h).2]
  | cons i rest ih =>
      intro g g2 h
      simp only [candLoop] at h
      split at h
      · exact Option.noConfusion h
      · rename_i g1 hset
        split at h
        · exact Option.noConfusion h
        · -- isValid false: loop continues on g1
          have := ih _ _ h
          rw [gridSet_gridSet hset 0] at this
          exact this
        · -- isValid true: recursion happened
          split at h
          · exact Option.noConfusion h
          · -- recursion succeeded: contradiction with the false result
            exact absurd (someResult_eq h).1 (by simp)
          · rename_i g3 hatt3
            have hg3 : g3 = g1 := hatt _ _ _ _ hatt3
            subst hg3
            have := ih _ _ h
            rw [gridSet_gridSet hset 0] at this
            exact this

theorem attempt_false : ∀ (fuel : Nat) (g : Grid) (r c : Int) (g2 : Grid),
    attempt fuel g r c = some (false, g2) → g2 = g := by
  intro fuel
  induction fuel with
  | zero => intro g r c g2 h; exact Option.noConfusion h
  | succ fuel ih =>
      intro g r c g2 h
      simp only [attempt] at h
      split at h
      · split at h
        · exact Option.noConfusion h
        · rename_i v hv
          split at h
          · rename_i hv0
            subst hv0
            have hres := candLoop_false_aux _ (fun g1 r1 c1 g3 hh => ih g1 r1 c1 g3 hh)
              r c _ g g2 h
            exact gridSet_cancel hv hres
          · exact ih _ _ _ _ h
      · split at h
        · exact Option.noConfusion h
        · exact (someResult_eq h).2.symm

/-! ## The search preserves the grid shape -/

theorem candLoop_wf_aux (att : Grid → Int → Int → Option (Bool × Grid))
    (hatt : ∀ g1 r1 c1 s g3, att g1 r1 c1 = some (s, g3) → wfGrid g1 → wfGrid g3)
    (r c : Int) :
    ∀ (L : List Int) (g : Grid) (s : Bool) (g2 : Grid),
      candLoop att r c g L = some (s, g2) → wfGrid g → wfGrid g2 := by
  intro L
  induction L with
  | nil =>
      intro g s g2 h hw
      simp only [candLoop] at h
      split at h
      · exact Option.noConfusion h
      · rename_i g3 hset
        rw [← (someResult_eq h).2]
        exact (gridSet_some hset).2.2.2 hw
  | cons i rest ih =>
      intro g s g2 h hw
      simp only [candLoop] at h
      split at h
      · exact Option.noConfusion h
      · rename_i g1 hset
        have hw1 : wfGrid g1 := (gridSet_some hset).2.2.2 hw
        split at h
        · exact Option.noConfusion h
        · exact ih _ _ _ h hw1
        · split at h
          · exact Option.noConfusion h
          · rename_i g3 hatt3
            rw [← (someResult_eq h).2]
            exact hatt _ _ _ _ _ hatt3 hw1
          · rename_i g3 hatt3
            exact ih _ _ _ h (hatt _ _ _ _ _ hatt3 hw1)

theorem attempt_wf : ∀ (fuel : Nat) (g : Grid) (r c : Int) (s : Bool) (g2 : Grid),
    attempt fuel g r c = some (s, g2) → wfGrid g → wfGrid g2 := by
  intro fuel
  induction fuel with
  | zero => intro g r c s g2 h _; exact Option.noConfusion h
  | succ fuel ih =>
      intro g r c s g2 h hw
      simp only [attempt] at h
      split at h
      · split at h
        · exact Option.noConfusion h
        · rename_i v hv
          split at h
          · exact candLoop_wf_aux _ (fun a b d e f hh => ih a b d e f hh) r c _ g s g2 h hw
          · exact ih _ _ _ _ _ h hw
      · split at h
        · exact Option.noConfusion h
        · rw [← (someResult_eq h).2]
          exact hw

/-! ## Frame property: the search writes only later, originally-empty
cells, and writes only candidate values 1..9 -/

/-- All differences between g and g2 lie at in-bounds positions at or
after position p, were unknown in g, and hold a candidate value in g2. -/
def FrameProp (g g2 : Grid) (p : Nat) : Prop :=
  ∀ i j : Nat, cellOf g2 i j ≠ cellOf g i j →
    i < 9 ∧ j < 9 ∧ 9 * i + j ≥ p ∧ cellOf g i j = 0 ∧
    1 ≤ cellOf g2 i j ∧ cellOf g2 i j ≤ 9

theorem candLoop_frame_aux (att : Grid → Int → Int → Option (Bool × Grid))
    (hatt : ∀ g1 r1 c1 s g3, att g1 r1 c1 = some (s, g3) →
      FrameProp g1 g3 (posIdx r1 c1))
    (hattf : ∀ g1 r1 c1 g3, att g1 r1 c1 = some (false, g3) → g3 = g1)
    (r c : Int) (hb : inBounds r c) :
    ∀ (L : List Int), (∀ x ∈ L, 1 ≤ x ∧ x ≤ 9) →
    ∀ (g : Grid) (s : Bool) (g2 : Grid),
      candLoop att r c g L = some (s, g2) →
      ∀ i j : Nat, cellOf g2 i j ≠ cellOf g i j →
        i < 9 ∧ j < 9 ∧
        ((i = r.toNat ∧ j = c.toNat ∧
            (cellOf g2 i j = 0 ∨ (1 ≤ cellOf g2 i j ∧ cellOf g2 i j ≤ 9))) ∨
         (9 * i + j > 9 * r.toNat + c.toNat ∧ cellOf g i j = 0 ∧
            1 ≤ cellOf g2 i j ∧ cellOf g2 i j ≤ 9)) := by
  have hrc9 : r.toNat < 9 ∧ c.toNat < 9 := by
    obtain ⟨a1, a2, a3, a4⟩ := hb
    omega
  intro L
  induction L with
  | nil =>
      intro _ g s g2 h a b hch
      simp only [candLoop] at h
      split at h
      · exact Option.noConfusion h
      · rename_i g3 hset
        rw [← (someResult_eq h).2] at hch ⊢
        have hupd := (gridSet_some hset).2.1
        by_cases hab : a = r.toNat ∧ b = c.toNat
        · refine ⟨by omega, by omega, Or.inl ⟨hab.1, hab.2, Or.inl ?_⟩⟩
          rw [hupd a b, if_pos hab]
        · rw [hupd a b, if_neg hab] at hch
          exact absurd rfl hch
  | cons i rest ih =>
      intro hL g s g2 h a b hch
      obtain ⟨hi1, hi9⟩ := hL i (List.mem_cons_self i rest)
      have hLr : ∀ x ∈ rest, 1 ≤ x ∧ x ≤ 9 :=
        fun x hx => hL x (List.mem_cons_of_mem i hx)
      simp only [candLoop] at h
      split at h
      · exact Option.noConfusion h
      · rename_i g1 hset
        have hupd := (gridSet_some hset).2.1
        split at h
        · exact Option.noConfusion h
        · -- isValid false: loop continues on g1
          by_cases hab : a = r.toNat ∧ b = c.toNat
          · by_cases hch1 : cellOf g2 a b = cellOf g1 a b
            · refine ⟨by omega, by omega, Or.inl ⟨hab.1, hab.2, Or.inr ?_⟩⟩
              rw [hch1, hupd a b, if_pos hab]
              exact ⟨hi1, hi9⟩
            · obtain ⟨ha9, hb9, hcl⟩ := ih hLr g1 s g2 h a b hch1
              rcases hcl with ⟨e1, e2, hval⟩ | ⟨hgt, _, _⟩
              · exact ⟨ha9, hb9, Or.inl ⟨e1, e2, hval⟩⟩
              · obtain ⟨e1, e2⟩ := hab
                omega
          · have hg1 : cellOf g1 a b = cellOf g a b := by
              rw [hupd a b, if_neg hab]
            have hch1 : cellOf g2 a b ≠ cellOf g1 a b := by
              rw [hg1]; exact hch
            obtain ⟨ha9, hb9, hcl⟩ := ih hLr g1 s g2 h a b hch1
            rcases hcl with ⟨e1, e2, _⟩ | ⟨hgt, hold, hrange⟩
            · exact absurd ⟨e1, e2⟩ hab
            · exact ⟨ha9, hb9, Or.inr ⟨hgt, hg1 ▸ hold, hrange⟩⟩
        · -- isValid true: recursion at the next position
          split at h
          · exact Option.noConfusion h
          · -- recursion succeeded
            rename_i g3 hatt3
            rw [(someResult_eq h).2] at hatt3
            have hfr := hatt _ _ _ _ _ hatt3
            rw [posIdx_nextPos hb, posIdx_inBounds hb] at hfr
            by_cases hch1 : cellOf g2 a b = cellOf g1 a b
            · rw [hch1, hupd a b] at hch
              by_cases hab : a = r.toNat ∧ b = c.toNat
              · refine ⟨by omega, by omega, Or.inl ⟨hab.1, hab.2, Or.inr ?_⟩⟩
                rw [hch1, hupd a b, if_pos hab]
                exact ⟨hi1, hi9⟩
              · rw [if_neg hab] at hch
                exact absurd rfl hch
            · obtain ⟨ha9, hb9, hge, hold, hrange⟩ := hfr a b hch1
              have hab : ¬(a = r.toNat ∧ b = c.toNat) := by
                intro ⟨e1, e2⟩
                omega
              have hg1 : cellOf g1 a b = cellOf g a b := by
                rw [hupd a b, if_neg hab]
              exact ⟨ha9, hb9, Or.inr ⟨by omega, hg1 ▸ hold, hrange⟩⟩
          · -- recursion failed and was rolled back
            rename_i g3 hatt3
            have hg3 : g3 = g1 := hattf _ _ _ _ hatt3
            rw [hg3] at h
            by_cases hab : a = r.toNat ∧ b = c.toNat
            · by_cases hch1 : cellOf g2 a b = cellOf g1 a b
              · refine ⟨by omega, by omega, Or.inl ⟨hab.1, hab.2, Or.inr ?_⟩⟩
                rw [hch1, hupd a b, if_pos hab]
                exact ⟨hi1, hi9⟩
              · obtain ⟨ha9, hb9, hcl⟩ := ih hLr g1 s g2 h a b hch1
                rcases hcl with ⟨e1, e2, hval⟩ | ⟨hgt, _, _⟩
                · exact ⟨ha9, hb9, Or.inl ⟨e1, e2, hval⟩⟩
                · obtain ⟨e1, e2⟩ := hab
                  omega
            · have hg1 : cellOf g1 a b = cellOf g a b := by
                rw [hupd a b, if_neg hab]
              have hch1 : cellOf g2 a b ≠ cellOf g1 a b := by
                rw [hg1]; exact hch
              obtain ⟨ha9, hb9, hcl⟩ := ih hLr g1 s g2 h a b hch1
              rcases hcl with ⟨e1, e2, _⟩ | ⟨hgt, hold, hrange⟩
              · exact absurd ⟨e1, e2⟩ hab
              · exact ⟨ha9, hb9, Or.inr ⟨hgt, hg1 ▸ hold, hrange⟩⟩

theorem attempt_frame : ∀ (fuel : Nat) (g : Grid) (r c : Int) (s : Bool) (g2 : Grid),
    attempt fuel g r c = some (s, g2) → FrameProp g g2 (posIdx r c) := by
  intro fuel
  induction fuel with
  | zero => intro g r c s g2 h; exact Option.noConfusion h
  | succ fuel ih =>
      intro g r c s g2 h
      simp only [attempt] at h
      split at h
      · rename_i hb
        split at h
        · exact Option.noConfusion h
        · rename_i v hv
          have hcell : v = cellOf g r.toNat c.toNat := (gridGet_some hv).2
          split at h
          · rename_i hv0
            intro a b hch
            have hfr := candLoop_frame_aux _ (fun a2 b2 d2 e2 f2 hh => ih a2 b2 d2 e2 f2 hh)
              (fun a2 b2 d2 e2 hh => attempt_false fuel a2 b2 d2 e2 hh)
              r c hb _ (by intro x hx; fin_cases hx <;> omega) g s g2 h a b hch
            obtain ⟨ha9, hb9, hcl⟩ := hfr
            rw [posIdx_inBounds hb]
            rcases hcl with ⟨e1, e2, hval⟩ | ⟨hgt, hold, hrange⟩
            · have hold : cellOf g a b = 0 := by
                rw [e1, e2, ← hcell, hv0]
              rcases hval with h0 | hrange
              · rw [hold, h0] at hch
                exact absurd rfl hch
              · exact ⟨ha9, hb9, by omega, hold, hrange⟩
            · exact ⟨ha9, hb9, by omega, hold, hrange⟩
          · intro a b hch
            obtain ⟨ha9, hb9, hge, hold, hrange⟩ := ih _ _ _ _ _ h a b hch
            rw [posIdx_nextPos hb] at hge
            exact ⟨ha9, hb9, by omega, hold, hrange⟩
      · split at h
        · exact Option.noConfusion h
        · intro a b hch
          rw [← (someResult_eq h).2] at hch
          exact absurd rfl hch

/-! ## Success fills every position from the current one on -/

theorem candLoop_fill_aux (att : Grid → Int → Int → Option (Bool × Grid))
    (hattFill : ∀ g1 r1 c1 g3, att g1 r1 c1 = some (true, g3) →
      ∀ i j : Nat, i < 9 → j < 9 → 9 * i + j ≥ posIdx r1 c1 → cellOf g3 i j ≠ 0)
    (hattFrame : ∀ g1 r1 c1 s g3, att g1 r1 c1 = some (s, g3) →
      FrameProp g1 g3 (posIdx r1 c1))
    (hattf : ∀ g1 r1 c1 g3, att g1 r1 c1 = some (false, g3) → g3 = g1)
    (r c : Int) (hb : inBounds r c) :
    ∀ (L : List Int), (∀ x ∈ L, 1 ≤ x ∧ x ≤ 9) →
    ∀ (g g2 : Grid), candLoop att r c g L = some (true, g2) →
      ∀ i j : Nat, i < 9 → j < 9 → 9 * i + j ≥ 9 * r.toNat + c.toNat →
        cellOf g2 i j ≠ 0 := by
  have hrc9 : r.toNat < 9 ∧ c.toNat < 9 := by
    obtain ⟨a1, a2, a3, a4⟩ := hb
    omega
  intro L
  induction L with
  | nil =>
      intro _ g g2 h
      simp only [candLoop] at h
      split at h
      · exact Option.noConfusion h
      · exact absurd (someResult_eq h).1 (by simp)
  | cons i rest ih =>
      intro hL g g2 h a b ha9 hb9 hge
      obtain ⟨hi1, hi9⟩ := hL i (List.mem_cons_self i rest)
      have hLr : ∀ x ∈ rest, 1 ≤ x ∧ x ≤ 9 :=
        fun x hx => hL x (List.mem_cons_of_mem i hx)
      simp only [candLoop] at h
      split at h
      · exact Option.noConfusion h
      · rename_i g1 hset
        have hupd := (gridSet_some hset).2.1
        split at h
        · exact Option.noConfusion h
        · exact ih hLr g1 g2 h a b ha9 hb9 hge
        · split at h
          · exact Option.noConfusion h
          · -- recursion succeeded
            rename_i g3 hatt3
            rw [(someResult_eq h).2] at hatt3
            by_cases hpos : 9 * a + b ≥ 9 * r.toNat + c.toNat + 1
            · have := hattFill _ _ _ _ hatt3 a b ha9 hb9
                (by rw [posIdx_nextPos hb, posIdx_inBounds hb]; omega)
              exact this
            · have hab : a = r.toNat ∧ b = c.toNat := by omega
              have hfr := hattFrame _ _ _ _ _ hatt3
              rw [posIdx_nextPos hb, posIdx_inBounds hb] at hfr
              by_cases hch : cellOf g2 a b = cellOf g1 a b
              · rw [hch, hupd a b, if_pos hab]
                omega
              · obtain ⟨_, _, hge2, _, _⟩ := hfr a b hch
                omega
          · -- recursion failed and was rolled back
            rename_i g3 hatt3
            rw [hattf _ _ _ _ hatt3] at h
            exact ih hLr g1 g2 h a b ha9 hb9 hge

theorem attempt_fill : ∀ (fuel : Nat) (g : Grid) (r c : Int) (g2 : Grid),
    attempt fuel g r c = some (true, g2) →
    ∀ i j : Nat, i < 9 → j < 9 → 9 * i + j ≥ posIdx r c →
      cellOf g2 i j ≠ 0 := by
  intro fuel
  induction fuel with
  | zero => intro g r c g2 h; exact Option.noConfusion h
  | succ fuel ih =>
      intro g r c g2 h a b ha9 hb9 hge
      simp only [attempt] at h
      split at h
      · rename_i hb
        rw [posIdx_inBounds hb] at hge
        split at h
        · exact Option.noConfusion h
        · rename_i v hv
          have hcell : v = cellOf g r.toNat c.toNat := (gridGet_some hv).2
          split at h
          · exact candLoop_fill_aux _
              (fun a2 b2 d2 e2 hh => ih a2 b2 d2 e2 hh)
              (fun a2 b2 d2 e2 f2 hh => attempt_frame fuel a2 b2 d2 e2 f2 hh)
              (fun a2 b2 d2 e2 hh => attempt_false fuel a2 b2 d2 e2 hh)
              r c hb _ (by intro x hx; fin_cases hx <;> omega)
              g g2 h a b ha9 hb9 hge
          · rename_i hv0
            by_cases hpos : 9 * a + b ≥ 9 * r.toNat + c.toNat + 1
            · exact ih _ _ _ _ h a b ha9 hb9
                (by rw [posIdx_nextPos hb, posIdx_inBounds hb]; omega)
            · have hab : a = r.toNat ∧ b = c.toNat := by
                obtain ⟨a1, a2, a3, a4⟩ := hb
                omega
              have hfr := attempt_frame fuel _ _ _ _ _ h
              rw [posIdx_nextPos hb, posIdx_inBounds hb] at hfr
              by_cases hch : cellOf g2 a b = cellOf g a b
              · rw [hch, hab.1, hab.2, ← hcell]
                exact hv0
              · obtain ⟨_, _, hge2, _, _⟩ := hfr a b hch
                omega
      · rename_i hnb
        have : posIdx r c = 81 := by
          unfold posIdx
          rw [if_neg hnb]
        omega

/-! ## Success implies the final cell check passed on the final grid -/

theorem candLoop_final_aux (att : Grid → Int → Int → Option (Bool × Grid))
    (hattFinal : ∀ g1 r1 c1 g3, att g1 r1 c1 = some (true, g3) →
      isValid g3 8 8 = some true)
    (hattf : ∀ g1 r1 c1 g3, att g1 r1 c1 = some (false, g3) → g3 = g1)
    (r c : Int) :
    ∀ (L : List Int) (g g2 : Grid),
      candLoop att r c g L = some (true, g2) → isValid g2 8 8 = some true := by
  intro L
  induction L with
  | nil =>
      intro g g2 h
      simp only [candLoop] at h
      split at h
      · exact Option.noConfusion h
      · exact absurd (someResult_eq h).1 (by simp)
  | cons i rest ih =>
      intro g g2 h
      simp only [candLoop] at h
      split at h
      · exact Option.noConfusion h
      · rename_i g1 hset
        split at h
        · exact Option.noConfusion h
        · exact ih g1 g2 h
        · split at h
          · exact Option.noConfusion h
          · rename_i g3 hatt3
            rw [(someResult_eq h).2] at hatt3
            exact hattFinal _ _ _ _ hatt3
          · rename_i g3 hatt3
            rw [hattf _ _ _ _ hatt3] at h
            exact ih g1 g2 h

theorem attempt_final : ∀ (fuel : Nat) (g : Grid) (r c : Int) (g2 : Grid),
    attempt fuel g r c = some (true, g2) → isValid g2 8 8 = some true := by
  intro fuel
  induction fuel with
  | zero => intro g r c g2 h; exact Option.noConfusion h
  | succ fuel ih =>
      intro g r c g2 h
      simp only [attempt] at h
      split at h
      · split at h
        · exact Option.noConfusion h
        · rename_i v hv
          split at h
          · exact candLoop_final_aux _
              (fun a2 b2 d2 e2 hh => ih a2 b2 d2 e2 hh)
              (fun a2 b2 d2 e2 hh => attempt_false fuel a2 b2 d2 e2 hh)
              r c _ g g2 h
          · exact ih _ _ _ _ h
      · split at h
        · exact Option.noConfusion h
        · rename_i b hbv
          obtain ⟨hb2, hg2⟩ := someResult_eq h
          rw [hg2, hb2] at hbv
          exact hbv

/-! ## The search preserves pairwise consistency of filled cells -/

theorem sameUnit_symm {i1 j1 i2 j2 : Nat} (h : sameUnit i1 j1 i2 j2) :
    sameUnit i2 j2 i1 j1 := by
  unfold sameUnit at h ⊢
  omega

theorem consistentF_congr {f f2 : Nat → Nat → Int}
    (h : ∀ i j : Nat, i < 9 → j < 9 → f i j = f2 i j)
    (hc : ConsistentF f) : ConsistentF f2 := by
  intro i1 h1 j1 h2 i2 h3 j2 h4 hne hsu hz1 hz2
  rw [← h i1 j1 h1 h2] at hz1 ⊢
  rw [← h i2 j2 h3 h4] at hz2 ⊢
  exact hc i1 h1 j1 h2 i2 h3 j2 h4 hne hsu hz1 hz2

theorem ks_main {f : Nat → Nat → Int} {a b : Nat} (ha : a < 9) (hb : b < 9)
    (hcons : ConsistentF (eraseAt f a b))
    (hno : ∀ i2, i2 < 9 → ∀ j2, j2 < 9 → ¬(i2 = a ∧ j2 = b) →
      sameUnit a b i2 j2 → f i2 j2 ≠ f a b) :
    ConsistentF f := by
  intro i1 h1 j1 h2 i2 h3 j2 h4 hne hsu hz1 hz2
  by_cases e1 : i1 = a ∧ j1 = b
  · by_cases e2 : i2 = a ∧ j2 = b
    · exact absurd ⟨e1.1.trans e2.1.symm, e1.2.trans e2.2.symm⟩ hne
    · rw [e1.1, e1.2]
      rw [e1.1, e1.2] at hsu
      exact (hno i2 h3 j2 h4 e2 hsu).symm
  · by_cases e2 : i2 = a ∧ j2 = b
    · rw [e2.1, e2.2]
      rw [e2.1, e2.2] at hsu
      exact hno i1 h1 j1 h2 e1 (sameUnit_symm hsu)
    · have r1 : eraseAt f a b i1 j1 = f i1 j1 := by
        unfold eraseAt
        rw [if_neg e1]
      have r2 : eraseAt f a b i2 j2 = f i2 j2 := by
        unfold eraseAt
        rw [if_neg e2]
      have := hcons i1 h1 j1 h2 i2 h3 j2 h4 hne hsu
        (by rw [r1]; exact hz1) (by rw [r2]; exact hz2)
      rw [r1, r2] at this
      exact this

theorem candLoop_consistent_aux (att : Grid → Int → Int → Option (Bool × Grid))
    (hattCons : ∀ g1 r1 c1 s g3, att g1 r1 c1 = some (s, g3) →
      wfGrid g1 → Consistent g1 → Consistent g3)
    (hattWf : ∀ g1 r1 c1 s g3, att g1 r1 c1 = some (s, g3) →
      wfGrid g1 → wfGrid g3)
    (hattf : ∀ g1 r1 c1 g3, att g1 r1 c1 = some (false, g3) → g3 = g1)
    (r c : Int) (hb : inBounds r c) :
    ∀ (L : List Int) (g : Grid) (s : Bool) (g2 : Grid),
      wfGrid g →
      ConsistentF (eraseAt (cellOf g) r.toNat c.toNat) →
      candLoop att r c g L = some (s, g2) → Consistent g2 := by
  have hrc9 : r.toNat < 9 ∧ c.toNat < 9 := by
    obtain ⟨a1, a2, a3, a4⟩ := hb
    omega
  intro L
  induction L with
  | nil =>
      intro g s g2 hw herase h
      simp only [candLoop] at h
      split at h
      · exact Option.noConfusion h
      · rename_i g3 hset
        rw [← (someResult_eq h).2]
        have hupd := (gridSet_some hset).2.1
        exact consistentF_congr
          (fun i j _ _ => by
            unfold eraseAt
            rw [hupd i j]) herase
  | cons i rest ih =>
      intro g s g2 hw herase h
      simp only [candLoop] at h
      split at h
      · exact Option.noConfusion h
      · rename_i g1 hset
        have hw1 : wfGrid g1 := (gridSet_some hset).2.2.2 hw
        have hupd := (gridSet_some hset).2.1
        have herase1 : ConsistentF (eraseAt (cellOf g1) r.toNat c.toNat) := by
          refine consistentF_congr (fun a b _ _ => ?_) herase
          unfold eraseAt
          by_cases hab : a = r.toNat ∧ b = c.toNat
          · rw [if_pos hab, if_pos hab]
          · rw [if_neg hab, if_neg hab, hupd a b, if_neg hab]
        split at h
        · exact Option.noConfusion h
        · exact ih g1 s g2 hw1 herase1 h
        · rename_i hval
          have hnc : NoConflictAt g1 r.toNat c.toNat := by
            rw [isValid_wf hw1 hb] at hval
            exact of_decide_eq_true (Option.some_inj.mp hval)
          have hcons1 : Consistent g1 :=
            ks_main hrc9.1 hrc9.2 herase1 hnc
          split at h
          · exact Option.noConfusion h
          · rename_i g3 hatt3
            rw [(someResult_eq h).2] at hatt3
            exact hattCons _ _ _ _ _ hatt3 hw1 hcons1
          · rename_i g3 hatt3
            rw [hattf _ _ _ _ hatt3] at h
            exact ih g1 s g2 hw1 herase1 h

theorem attempt_consistent :
    ∀ (fuel : Nat) (g : Grid) (r c : Int) (s : Bool) (g2 : Grid),
    attempt fuel g r c = some (s, g2) → wfGrid g → Consistent g →
    Consistent g2 := by
  intro fuel
  induction fuel with
  | zero => intro g r c s g2 h _ _; exact Option.noConfusion h
  | succ fuel ih =>
      intro g r c s g2 h hw hcons
      simp only [attempt] at h
      split at h
      · rename_i hb
        split at h
        · exact Option.noConfusion h
        · rename_i v hv
          have hcell : v = cellOf g r.toNat c.toNat := (gridGet_some hv).2
          split at h
          · rename_i hv0
            have herase : ConsistentF (eraseAt (cellOf g) r.toNat c.toNat) := by
              refine consistentF_congr (fun a b _ _ => ?_) hcons
              unfold eraseAt
              by_cases hab : a = r.toNat ∧ b = c.toNat
              · rw [if_pos hab, hab.1, hab.2, ← hcell, hv0]
              · rw [if_neg hab]
            exact candLoop_consistent_aux _
              (fun a2 b2 d2 e2 f2 hh => ih a2 b2 d2 e2 f2 hh)
              (fun a2 b2 d2 e2 f2 hh => attempt_wf fuel a2 b2 d2 e2 f2 hh)
              (fun a2 b2 d2 e2 hh => attempt_false fuel a2 b2 d2 e2 hh)
              r c hb _ g s g2 hw herase h
          · exact ih _ _ _ _ _ h hw hcons
      · split at h
        · exact Option.noConfusion h
        · rw [← (someResult_eq h).2]
          exact hcons

/-! ## With enough fuel and a well-formed grid the search is total -/

theorem inBounds88 : inBounds 8 8 := by
  unfold inBounds
  omega

theorem candLoop_isSome_aux (att : Grid → Int → Int → Option (Bool × Grid))
    (r c : Int) (hb : inBounds r c)
    (hattSome : ∀ g1, wfGrid g1 →
      (att g1 (nextPos r c).1 (nextPos r c).2).isSome)
    (hattWf : ∀ g1 r1 c1 s g3, att g1 r1 c1 = some (s, g3) →
      wfGrid g1 → wfGrid g3) :
    ∀ (L : List Int) (g : Grid), wfGrid g →
      (candLoop att r c g L).isSome := by
  intro L
  induction L with
  | nil =>
      intro g hw
      obtain ⟨g3, hset⟩ := gridSet_wf hw hb 0
      simp only [candLoop, hset, Option.isSome_some]
  | cons i rest ih =>
      intro g hw
      obtain ⟨g1, hset⟩ := gridSet_wf hw hb i
      have hw1 : wfGrid g1 := (gridSet_some hset).2.2.2 hw
      simp only [candLoop, hset]
      rw [isValid_wf hw1 hb]
      by_cases hP : NoConflictAt g1 r.toNat c.toNat
      · rw [show decide (NoConflictAt g1 r.toNat c.toNat) = true
          from decide_eq_true hP]
        have hsome := hattSome g1 hw1
        cases hres : att g1 (nextPos r c).1 (nextPos r c).2 with
        | none => rw [hres] at hsome; exact absurd hsome (by simp)
        | some p =>
            obtain ⟨s3, g3⟩ := p
            cases s3 with
            | true => simp [hres]
            | false =>
                simp only [hres]
                exact ih g3 (hattWf _ _ _ _ _ hres hw1)
      · rw [show decide (NoConflictAt g1 r.toNat c.toNat) = false
          from decide_eq_false hP]
        exact ih g1 hw1

theorem attempt_isSome : ∀ (fuel : Nat) (g : Grid) (r c : Int),
    wfGrid g → 82 - posIdx r c ≤ fuel → (attempt fuel g r c).isSome := by
  intro fuel
  induction fuel with
  | zero =>
      intro g r c _ hfuel
      have := posIdx_le r c
      omega
  | succ fuel ih =>
      intro g r c hw hfuel
      simp only [attempt]
      by_cases hb : inBounds r c
      · rw [if_pos hb]
        simp only [gridGet_wf hw hb]
        have hpos : posIdx r c = 9 * r.toNat + c.toNat := posIdx_inBounds hb
        have hpos80 : posIdx r c ≤ 80 := by
          obtain ⟨a1, a2, a3, a4⟩ := hb
          omega
        by_cases hv : cellOf g r.toNat c.toNat = 0
        · rw [if_pos hv]
          exact candLoop_isSome_aux _ r c hb
            (fun g1 hw1 => ih g1 _ _ hw1
              (by rw [posIdx_nextPos hb]; omega))
            (fun a2 b2 d2 e2 f2 hh => attempt_wf fuel a2 b2 d2 e2 f2 hh)
            _ g hw
        · rw [if_neg hv]
          exact ih g _ _ hw (by rw [posIdx_nextPos hb]; omega)
      · rw [if_neg hb, isValid_wf hw inBounds88]
        simp

/-! ## On a grid already filled from the current position on, the
search just walks to the end and reports the final cell check -/

theorem attempt_filled : ∀ (fuel : Nat) (g : Grid) (r c : Int),
    wfGrid g → 82 - posIdx r c ≤ fuel →
    (∀ i j : Nat, i < 9 → j < 9 → 9 * i + j ≥ posIdx r c → cellOf g i j ≠ 0) →
    attempt fuel g r c = (isValid g 8 8).map (fun b => (b, g)) := by
  intro fuel
  induction fuel with
  | zero =>
      intro g r c _ hfuel _
      have := posIdx_le r c
      omega
  | succ fuel ih =>
      intro g r c hw hfuel hfill
      simp only [attempt]
      by_cases hb : inBounds r c
      · rw [if_pos hb]
        simp only [gridGet_wf hw hb]
        have hrc9 : r.toNat < 9 ∧ c.toNat < 9 := by
          obtain ⟨a1, a2, a3, a4⟩ := hb
          omega
        have hv : cellOf g r.toNat c.toNat ≠ 0 :=
          hfill r.toNat c.toNat hrc9.1 hrc9.2 (by rw [posIdx_inBounds hb])
        rw [if_neg hv]
        exact ih g _ _ hw (by rw [posIdx_nextPos hb]; omega)
          (fun i j h1 h2 h3 => hfill i j h1 h2
            (by rw [posIdx_nextPos hb] at h3; omega))
      · rw [if_neg hb]
        cases hval : isValid g 8 8 with
        | none => simp [Option.map]
        | some b => simp [Option.map]

/-! ## Row-major lexicographic comparison of cell functions -/

/-- f is lexicographically at most h on the row-major positions from p
to 80: either they agree everywhere there, or f is smaller at the first
position where they differ. -/
def LexLeFrom (p : Nat) (f h : Nat → Nat → Int) : Prop :=
  (∀ k, p ≤ k → k < 81 → f (k / 9) (k % 9) = h (k / 9) (k % 9)) ∨
  (∃ k, p ≤ k ∧ k < 81 ∧ f (k / 9) (k % 9) < h (k / 9) (k % 9) ∧
    ∀ m, p ≤ m → m < k → f (m / 9) (m % 9) = h (m / 9) (m % 9))

theorem lexLeFrom_step {p : Nat} {f h : Nat → Nat → Int} (hp : p < 81)
    (heq : f (p / 9) (p % 9) = h (p / 9) (p % 9))
    (hlex : LexLeFrom (p + 1) f h) : LexLeFrom p f h := by
  rcases hlex with hall | ⟨k, hk1, hk2, hk3, hk4⟩
  · left
    intro k hk1 hk2
    by_cases hkp : k = p
    · rw [hkp]; exact heq
    · exact hall k (by omega) hk2
  · right
    refine ⟨k, by omega, hk2, hk3, fun m hm1 hm2 => ?_⟩
    by_cases hmp : m = p
    · rw [hmp]; exact heq
    · exact hk4 m (by omega) hm2

theorem lexLeFrom_lt {p : Nat} {f h : Nat → Nat → Int} (hp : p < 81)
    (hlt : f (p / 9) (p % 9) < h (p / 9) (p % 9)) : LexLeFrom p f h := by
  right
  exact ⟨p, Nat.le_refl p, hp, hlt, fun m hm1 hm2 => by omega⟩

/-- The candidate values k, k+1, ..., 9 as integers. -/
def candsFrom (k : Nat) : List Int :=
  (List.range' k (10 - k)).map (fun n => (n : Int))

theorem candsFrom_one : candsFrom 1 = [1, 2, 3, 4, 5, 6, 7, 8, 9] := by
  rfl

theorem candsFrom_cons {k : Nat} (hk : k ≤ 9) :
    candsFrom k = (k : Int) :: candsFrom (k + 1) := by
  unfold candsFrom
  rw [show 10 - k = (10 - (k + 1)) + 1 from by omega]
  rfl

/-! ## Completeness: a valid completion makes the search succeed with
the lexicographically smallest reachable grid -/

theorem erase_after_set {g g1 : Grid} {r c v : Int}
    (hset : gridSet g r c v = some g1) (a b : Nat) :
    eraseAt (cellOf g1) r.toNat c.toNat a b =
    eraseAt (cellOf g) r.toNat c.toNat a b := by
  have hupd := (gridSet_some hset).2.1
  unfold eraseAt
  by_cases hab : a = r.toNat ∧ b = c.toNat
  · rw [if_pos hab, if_pos hab]
  · rw [if_neg hab, if_neg hab, hupd a b, if_neg hab]

theorem candLoop_complete_last
    (fuel : Nat) (r c : Int) (hb : inBounds r c)
    (h : Nat → Nat → Int)
    (hfr : ∀ i j : Nat, i < 9 → j < 9 → 1 ≤ h i j ∧ h i j ≤ 9)
    (hfc : ConsistentF h)
    (hattC : ∀ g1 : Grid, wfGrid g1 →
      (∀ i j : Nat, i < 9 → j < 9 → 9 * i + j < posIdx r c + 1 →
        cellOf g1 i j ≠ 0) →
      Consistent g1 →
      (∀ i j : Nat, i < 9 → j < 9 → cellOf g1 i j ≠ 0 →
        h i j = cellOf g1 i j) →
      ∃ g3, attempt fuel g1 (nextPos r c).1 (nextPos r c).2 = some (true, g3) ∧
        LexLeFrom (posIdx r c + 1) (cellOf g3) h)
    (k : Nat) (hk1 : 1 ≤ k) (hkw : (k : Int) = h r.toNat c.toNat)
    (g : Grid) (hw : wfGrid g)
    (hfill : ∀ i j : Nat, i < 9 → j < 9 → 9 * i + j < posIdx r c →
      cellOf g i j ≠ 0)
    (herase : ConsistentF (eraseAt (cellOf g) r.toNat c.toNat))
    (hagree : ∀ i j : Nat, i < 9 → j < 9 → ¬(i = r.toNat ∧ j = c.toNat) →
      cellOf g i j ≠ 0 → h i j = cellOf g i j) :
    ∃ g2, candLoop (fun g2 r2 c2 => attempt fuel g2 r2 c2) r c g
        (candsFrom k) = some (true, g2) ∧
      LexLeFrom (posIdx r c) (cellOf g2) h := by
  have hrc9 : r.toNat < 9 ∧ c.toNat < 9 := by
    obtain ⟨a1, a2, a3, a4⟩ := hb
    omega
  have hpos : posIdx r c = 9 * r.toNat + c.toNat := posIdx_inBounds hb
  have hw19 := hfr r.toNat c.toNat hrc9.1 hrc9.2
  have hk9 : k ≤ 9 := by omega
  rw [candsFrom_cons hk9]
  obtain ⟨g1, hset⟩ := gridSet_wf hw hb (k : Int)
  have hw1 : wfGrid g1 := (gridSet_some hset).2.2.2 hw
  have hupd := (gridSet_some hset).2.1
  have hcellpos : cellOf g1 r.toNat c.toNat = (k : Int) := by
    rw [hupd, if_pos ⟨rfl, rfl⟩]
  have herase1 : ConsistentF (eraseAt (cellOf g1) r.toNat c.toNat) :=
    consistentF_congr (fun a b _ _ => (erase_after_set hset a b).symm) herase
  have hnc : NoConflictAt g1 r.toNat c.toNat := by
    intro i2 hi2 j2 hj2 hne hsu heqv
    rw [hcellpos] at heqv
    have hg : cellOf g1 i2 j2 = cellOf g i2 j2 := by
      rw [hupd, if_neg hne]
    rw [hg] at heqv
    have hnz : cellOf g i2 j2 ≠ 0 := by rw [heqv]; omega
    have hag := hagree i2 j2 hi2 hj2 hne hnz
    exact hfc i2 hi2 j2 hj2 r.toNat hrc9.1 c.toNat hrc9.2 hne
      (sameUnit_symm hsu) (by rw [hag, heqv]; omega)
      (by rw [← hkw]; omega) (by rw [hag, heqv, hkw])
  have hval : isValid g1 r c = some true := by
    rw [isValid_wf hw1 hb, decide_eq_true hnc]
  have hcons1 : Consistent g1 := ks_main hrc9.1 hrc9.2 herase1 hnc
  have hfill1 : ∀ i j : Nat, i < 9 → j < 9 → 9 * i + j < posIdx r c + 1 →
      cellOf g1 i j ≠ 0 := by
    intro i j hi hj hlt
    by_cases hij : i = r.toNat ∧ j = c.toNat
    · rw [hupd, if_pos hij]
      omega
    · rw [hupd, if_neg hij]
      have hne2 : 9 * i + j ≠ 9 * r.toNat + c.toNat := by
        intro he
        exact hij ⟨by omega, by omega⟩
      exact hfill i j hi hj (by omega)
  have hagree1 : ∀ i j : Nat, i < 9 → j < 9 → cellOf g1 i j ≠ 0 →
      h i j = cellOf g1 i j := by
    intro i j hi hj hnz
    by_cases hij : i = r.toNat ∧ j = c.toNat
    · rw [hupd, if_pos hij, hij.1, hij.2, ← hkw]
    · rw [hupd, if_neg hij] at hnz ⊢
      exact hagree i j hi hj hij hnz
  obtain ⟨g3, hatt3, hlex3⟩ := hattC g1 hw1 hfill1 hcons1 hagree1
  refine ⟨g3, ?_, ?_⟩
  · simp only [candLoop, hset, hval, hatt3]
  · have hframe := attempt_frame fuel _ _ _ _ _ hatt3
    rw [posIdx_nextPos hb] at hframe
    have hposcell : cellOf g3 r.toNat c.toNat = (k : Int) := by
      by_cases hch : cellOf g3 r.toNat c.toNat = cellOf g1 r.toNat c.toNat
      · rw [hch, hcellpos]
      · obtain ⟨_, _, hge, _, _⟩ := hframe _ _ hch
        omega
    have hp81 : posIdx r c < 81 := by omega
    refine lexLeFrom_step hp81 ?_ hlex3
    have hdiv1 : posIdx r c / 9 = r.toNat := by omega
    have hdiv2 : posIdx r c % 9 = c.toNat := by omega
    rw [hdiv1, hdiv2, hposcell, hkw]

theorem candLoop_complete
    (fuel : Nat) (r c : Int) (hb : inBounds r c)
    (h : Nat → Nat → Int)
    (hfr : ∀ i j : Nat, i < 9 → j < 9 → 1 ≤ h i j ∧ h i j ≤ 9)
    (hfc : ConsistentF h)
    (hfuel : 82 - (posIdx r c + 1) ≤ fuel)
    (hattC : ∀ g1 : Grid, wfGrid g1 →
      (∀ i j : Nat, i < 9 → j < 9 → 9 * i + j < posIdx r c + 1 →
        cellOf g1 i j ≠ 0) →
      Consistent g1 →
      (∀ i j : Nat, i < 9 → j < 9 → cellOf g1 i j ≠ 0 →
        h i j = cellOf g1 i j) →
      ∃ g3, attempt fuel g1 (nextPos r c).1 (nextPos r c).2 = some (true, g3) ∧
        LexLeFrom (posIdx r c + 1) (cellOf g3) h) :
    ∀ (n k : Nat), (h r.toNat c.toNat).toNat - k ≤ n → 1 ≤ k →
      (k : Int) ≤ h r.toNat c.toNat →
    ∀ (g : Grid), wfGrid g →
      (∀ i j : Nat, i < 9 → j < 9 → 9 * i + j < posIdx r c →
        cellOf g i j ≠ 0) →
      ConsistentF (eraseAt (cellOf g) r.toNat c.toNat) →
      (∀ i j : Nat, i < 9 → j < 9 → ¬(i = r.toNat ∧ j = c.toNat) →
        cellOf g i j ≠ 0 → h i j = cellOf g i j) →
      ∃ g2, candLoop (fun g2 r2 c2 => attempt fuel g2 r2 c2) r c g
          (candsFrom k) = some (true, g2) ∧
        LexLeFrom (posIdx r c) (cellOf g2) h := by
  have hrc9 : r.toNat < 9 ∧ c.toNat < 9 := by
    obtain ⟨a1, a2, a3, a4⟩ := hb
    omega
  have hpos : posIdx r c = 9 * r.toNat + c.toNat := posIdx_inBounds hb
  have hw19 := hfr r.toNat c.toNat hrc9.1 hrc9.2
  intro n
  induction n with
  | zero =>
      intro k hgap hk1 hkw g hw hfill herase hagree
      have hkweq : (k : Int) = h r.toNat c.toNat := by omega
      exact candLoop_complete_last fuel r c hb h hfr hfc hattC k hk1 hkweq
        g hw hfill herase hagree
  | succ n ihn =>
      intro k hgap hk1 hkw g hw hfill herase hagree
      by_cases hkweq : (k : Int) = h r.toNat c.toNat
      · exact candLoop_complete_last fuel r c hb h hfr hfc hattC k hk1 hkweq
          g hw hfill herase hagree
      · have hklt : (k : Int) < h r.toNat c.toNat :=
          lt_of_le_of_ne hkw hkweq
        have hk9 : k ≤ 9 := by omega
        rw [candsFrom_cons hk9]
        obtain ⟨g1, hset⟩ := gridSet_wf hw hb (k : Int)
        have hw1 : wfGrid g1 := (gridSet_some hset).2.2.2 hw
        have hupd := (gridSet_some hset).2.1
        have hcellpos : cellOf g1 r.toNat c.toNat = (k : Int) := by
          rw [hupd, if_pos ⟨rfl, rfl⟩]
        have herase1 : ConsistentF (eraseAt (cellOf g1) r.toNat c.toNat) :=
          consistentF_congr (fun a b _ _ => (erase_after_set hset a b).symm)
            herase
        have hfill1 : ∀ i j : Nat, i < 9 → j < 9 → 9 * i + j < posIdx r c →
            cellOf g1 i j ≠ 0 := by
          intro i j hi hj hlt
          have hij : ¬(i = r.toNat ∧ j = c.toNat) := by
            intro ⟨e1, e2⟩
            omega
          rw [hupd, if_neg hij]
          exact hfill i j hi hj hlt
        have hagree1 : ∀ i j : Nat, i < 9 → j < 9 →
            ¬(i = r.toNat ∧ j = c.toNat) → cellOf g1 i j ≠ 0 →
            h i j = cellOf g1 i j := by
          intro i j hi hj hij hnz
          rw [hupd, if_neg hij] at hnz ⊢
          exact hagree i j hi hj hij hnz
        have hcont : ∃ g2, candLoop (fun g2 r2 c2 => attempt fuel g2 r2 c2)
            r c g1 (candsFrom (k + 1)) = some (true, g2) ∧
            LexLeFrom (posIdx r c) (cellOf g2) h :=
          ihn (k + 1) (by omega) (by omega) (by omega)
            g1 hw1 hfill1 herase1 hagree1
        by_cases hP : NoConflictAt g1 r.toNat c.toNat
        · have hsome := attempt_isSome fuel g1 (nextPos r c).1 (nextPos r c).2
            hw1 (by rw [posIdx_nextPos hb]; omega)
          cases hres : attempt fuel g1 (nextPos r c).1 (nextPos r c).2 with
          | none => rw [hres] at hsome; exact absurd hsome (by simp)
          | some p =>
              obtain ⟨s3, g3⟩ := p
              cases s3 with
              | true =>
                  refine ⟨g3, ?_, ?_⟩
                  · simp only [candLoop, hset, isValid_wf hw1 hb,
                      decide_eq_true hP, hres]
                  · have hframe := attempt_frame fuel _ _ _ _ _ hres
                    rw [posIdx_nextPos hb] at hframe
                    have hposcell : cellOf g3 r.toNat c.toNat = (k : Int) := by
                      by_cases hch : cellOf g3 r.toNat c.toNat =
                          cellOf g1 r.toNat c.toNat
                      · rw [hch, hcellpos]
                      · obtain ⟨_, _, hge, _, _⟩ := hframe _ _ hch
                        omega
                    have hp81 : posIdx r c < 81 := by omega
                    refine lexLeFrom_lt hp81 ?_
                    have hdiv1 : posIdx r c / 9 = r.toNat := by omega
                    have hdiv2 : posIdx r c % 9 = c.toNat := by omega
                    rw [hdiv1, hdiv2, hposcell]
                    exact hklt
              | false =>
                  have hg3 : g3 = g1 := attempt_false fuel _ _ _ _ hres
                  obtain ⟨g2, hloop, hlex⟩ := hcont
                  refine ⟨g2, ?_, hlex⟩
                  simp only [candLoop, hset, isValid_wf hw1 hb,
                    decide_eq_true hP, hres, hg3]
                  exact hloop
        · obtain ⟨g2, hloop, hlex⟩ := hcont
          refine ⟨g2, ?_, hlex⟩
          simp only [candLoop, hset, isValid_wf hw1 hb, decide_eq_false hP]
          exact hloop

theorem attempt_complete :
    ∀ (fuel : Nat) (g : Grid) (r c : Int) (h : Nat → Nat → Int),
    wfGrid g → 82 - posIdx r c ≤ fuel →
    (∀ i j : Nat, i < 9 → j < 9 → 9 * i + j < posIdx r c →
      cellOf g i j ≠ 0) →
    Consistent g →
    (∀ i j : Nat, i < 9 → j < 9 → cellOf g i j ≠ 0 → h i j = cellOf g i j) →
    (∀ i j : Nat, i < 9 → j < 9 → 1 ≤ h i j ∧ h i j ≤ 9) →
    ConsistentF h →
    ∃ g2, attempt fuel g r c = some (true, g2) ∧
      LexLeFrom (posIdx r c) (cellOf g2) h := by
  intro fuel
  induction fuel with
  | zero =>
      intro g r c h _ hfuel _ _ _ _ _
      have := posIdx_le r c
      omega
  | succ fuel ih =>
      intro g r c h hw hfuel hfill hcons hagree hfr hfc
      by_cases hbb : inBounds r c
      · have hrc9 : r.toNat < 9 ∧ c.toNat < 9 := by
          obtain ⟨a1, a2, a3, a4⟩ := hbb
          omega
        have hpos : posIdx r c = 9 * r.toNat + c.toNat := posIdx_inBounds hbb
        have hp81 : posIdx r c < 81 := by omega
        simp only [attempt]
        rw [if_pos hbb]
        simp only [gridGet_wf hw hbb]
        by_cases hv : cellOf g r.toNat c.toNat = 0
        · rw [if_pos hv, ← candsFrom_one]
          have herase : ConsistentF (eraseAt (cellOf g) r.toNat c.toNat) := by
            refine consistentF_congr (fun a b _ _ => ?_) hcons
            unfold eraseAt
            by_cases hab : a = r.toNat ∧ b = c.toNat
            · rw [if_pos hab, hab.1, hab.2, hv]
            · rw [if_neg hab]
          refine candLoop_complete fuel r c hbb h hfr hfc (by omega)
            (fun g1 hw1 hfill1 hcons1 hagree1 => ?_)
            (h r.toNat c.toNat).toNat 1 (by omega) (by omega)
            (by
              have := hfr r.toNat c.toNat hrc9.1 hrc9.2
              omega)
            g hw hfill herase
            (fun i j hi hj _ hnz => hagree i j hi hj hnz)
          have hrec := ih g1 (nextPos r c).1 (nextPos r c).2 h hw1
            (by rw [posIdx_nextPos hbb]; omega)
            (by rw [posIdx_nextPos hbb]; exact hfill1)
            hcons1 hagree1 hfr hfc
          rw [posIdx_nextPos hbb] at hrec
          exact hrec
        · rw [if_neg hv]
          have hfill2 : ∀ i j : Nat, i < 9 → j < 9 →
              9 * i + j < posIdx r c + 1 → cellOf g i j ≠ 0 := by
            intro i j hi hj hlt
            by_cases hij : 9 * i + j = 9 * r.toNat + c.toNat
            · have : i = r.toNat ∧ j = c.toNat := by omega
              rw [this.1, this.2]
              exact hv
            · exact hfill i j hi hj (by omega)
          have hrec := ih g (nextPos r c).1 (nextPos r c).2 h hw
            (by rw [posIdx_nextPos hbb]; omega)
            (by rw [posIdx_nextPos hbb]; exact hfill2)
            hcons hagree hfr hfc
          rw [posIdx_nextPos hbb] at hrec
          obtain ⟨g2, hrec2, hlex⟩ := hrec
          refine ⟨g2, hrec2, lexLeFrom_step hp81 ?_ hlex⟩
          have hframe := attempt_frame fuel _ _ _ _ _ hrec2
          rw [posIdx_nextPos hbb] at hframe
          have hposcell : cellOf g2 r.toNat c.toNat =
              cellOf g r.toNat c.toNat := by
            by_cases hch : cellOf g2 r.toNat c.toNat =
                cellOf g r.toNat c.toNat
            · exact hch
            · obtain ⟨_, _, hge, _, _⟩ := hframe _ _ hch
              omega
          have hdiv1 : posIdx r c / 9 = r.toNat := by omega
          have hdiv2 : posIdx r c % 9 = c.toNat := by omega
          rw [hdiv1, hdiv2, hposcell,
            hagree r.toNat c.toNat hrc9.1 hrc9.2 hv]
      · have hpos81 : posIdx r c = 81 := by
          unfold posIdx
          rw [if_neg hbb]
        have hfillall : ∀ i j : Nat, i < 9 → j < 9 → cellOf g i j ≠ 0 := by
          intro i j hi hj
          exact hfill i j hi hj (by omega)
        have hnc : NoConflictAt g (8 : Int).toNat (8 : Int).toNat := by
          show NoConflictAt g 8 8
          intro i2 hi2 j2 hj2 hne hsu
          exact hcons i2 hi2 j2 hj2 8 (by omega) 8 (by omega) hne
            (sameUnit_symm hsu) (hfillall i2 j2 hi2 hj2)
            (hfillall 8 8 (by omega) (by omega))
        refine ⟨g, ?_, ?_⟩
        · simp only [attempt]
          rw [if_neg hbb, isValid_wf hw inBounds88, decide_eq_true hnc]
        · left
          intro k hk1 hk2
          omega

/-! ## Exactly-once property of a unit of nine distinct in-range cells -/

theorem exists_unique_of_inj_range {f : Nat → Int}
    (hrange : ∀ p, p < 9 → 1 ≤ f p ∧ f p ≤ 9)
    (hinj : ∀ p q, p < 9 → q < 9 → p ≠ q → f p ≠ f q)
    {v : Int} (hv1 : 1 ≤ v) (hv9 : v ≤ 9) :
    ∃ p, p < 9 ∧ f p = v ∧ ∀ q, q < 9 → f q = v → q = p := by
  let F : Fin 9 → Finset.Icc (1 : Int) 9 := fun p =>
    ⟨f p, Finset.mem_Icc.mpr ⟨(hrange p p.isLt).1, (hrange p p.isLt).2⟩⟩
  have hFinj : Function.Injective F := by
    intro p q hpq
    by_contra hne
    exact hinj p.val q.val p.isLt q.isLt
      (fun he => hne (Fin.ext he)) (congrArg Subtype.val hpq)
  have hcard : Fintype.card (Finset.Icc (1 : Int) 9) = 9 := by
    rw [Fintype.card_coe, Int.card_Icc]
    rfl
  have hbij : Function.Bijective F :=
    (Fintype.bijective_iff_injective_and_card F).mpr
      ⟨hFinj, by rw [hcard, Fintype.card_fin]⟩
  obtain ⟨p, hp⟩ := hbij.2 ⟨v, Finset.mem_Icc.mpr ⟨hv1, hv9⟩⟩
  refine ⟨p.val, p.isLt, congrArg Subtype.val hp, fun q hq hfq => ?_⟩
  by_contra hne
  exact hinj q p.val hq p.isLt hne
    (hfq.trans (congrArg Subtype.val hp).symm)

/-! ## Solved-grid specification: every row, column and sub-block
contains each value 1..9 exactly once -/

/-- Every row of g contains each value in 1..9 at exactly one column. -/
def RowsComplete (g : Grid) : Prop :=
  ∀ i, i < 9 → ∀ v : Int, 1 ≤ v → v ≤ 9 →
    ∃ j, j < 9 ∧ cellOf g i j = v ∧
      ∀ j2, j2 < 9 → cellOf g i j2 = v → j2 = j

/-- Every column of g contains each value in 1..9 at exactly one row. -/
def ColsComplete (g : Grid) : Prop :=
  ∀ j, j < 9 → ∀ v : Int, 1 ≤ v → v ≤ 9 →
    ∃ i, i < 9 ∧ cellOf g i j = v ∧
      ∀ i2, i2 < 9 → cellOf g i2 j = v → i2 = i

/-- Every 3 x 3 sub-block of g contains each value in 1..9 at exactly
one of its nine cells (indexed 0..8 in row-major order inside the
block). -/
def BlocksComplete (g : Grid) : Prop :=
  ∀ bi, bi < 3 → ∀ bj, bj < 3 → ∀ v : Int, 1 ≤ v → v ≤ 9 →
    ∃ p, p < 9 ∧ cellOf g (3 * bi + p / 3) (3 * bj + p % 3) = v ∧
      ∀ q, q < 9 → cellOf g (3 * bi + q / 3) (3 * bj + q % 3) = v → q = p

/-- The grid is completely filled with values 1..9 and every row,
column and sub-block contains each value exactly once. -/
def SolvedGrid (g : Grid) : Prop :=
  (∀ i, i < 9 → ∀ j, j < 9 → 1 ≤ cellOf g i j ∧ cellOf g i j ≤ 9) ∧
  RowsComplete g ∧ ColsComplete g ∧ BlocksComplete g

theorem solvedGrid_of_range_consistent {g : Grid}
    (hrange : ∀ i, i < 9 → ∀ j, j < 9 → 1 ≤ cellOf g i j ∧ cellOf g i j ≤ 9)
    (hcons : Consistent g) : SolvedGrid g := by
  refine ⟨hrange, ?_, ?_, ?_⟩
  · intro i hi v hv1 hv9
    exact exists_unique_of_inj_range
      (fun p hp => hrange i hi p hp)
      (fun p q hp hq hne => hcons i hi p hp i hi q hq
        (fun hc => hne hc.2) (by unfold sameUnit; omega)
        (by have := hrange i hi p hp; omega)
        (by have := hrange i hi q hq; omega))
      hv1 hv9
  · intro j hj v hv1 hv9
    exact exists_unique_of_inj_range
      (fun p hp => hrange p hp j hj)
      (fun p q hp hq hne => hcons p hp j hj q hq j hj
        (fun hc => hne hc.1) (by unfold sameUnit; omega)
        (by have := hrange p hp j hj; omega)
        (by have := hrange q hq j hj; omega))
      hv1 hv9
  · intro bi hbi bj hbj v hv1 hv9
    refine exists_unique_of_inj_range
      (fun p hp => hrange (3 * bi + p / 3) (by omega) (3 * bj + p % 3)
        (by omega))
      (fun p q hp hq hne => ?_) hv1 hv9
    have h1 : 3 * bi + p / 3 < 9 := by omega
    have h2 : 3 * bj + p % 3 < 9 := by omega
    have h3 : 3 * bi + q / 3 < 9 := by omega
    have h4 : 3 * bj + q % 3 < 9 := by omega
    refine hcons _ h1 _ h2 _ h3 _ h4
      (fun hc => hne (by omega)) (by unfold sameUnit; omega)
      (by have := hrange _ h1 _ h2; omega)
      (by have := hrange _ h3 _ h4; omega)

/-! ## The call graph of the search -/

/-- Intermediate loop states of the candidate loop at an unknown cell
(r, c), where recursive calls run attempt with the given fuel: from
loop grid g with remaining candidates L the loop reaches grid gm with
remaining candidates L2 after zero or more failed candidates. -/
inductive CandFails (fuel : Nat) (r c : Int) :
    Grid → List Int → Grid → List Int → Prop
  | refl (g : Grid) (L : List Int) : CandFails fuel r c g L g L
  | skip {g g1 gm : Grid} {i : Int} {L L2 : List Int} :
      gridSet g r c i = some g1 → isValid g1 r c = some false →
      CandFails fuel r c g1 L gm L2 → CandFails fuel r c g (i :: L) gm L2
  | fail {g g1 g2 gm : Grid} {i : Int} {L L2 : List Int} :
      gridSet g r c i = some g1 → isValid g1 r c = some true →
      attempt fuel g1 (nextPos r c).1 (nextPos r c).2 = some (false, g2) →
      CandFails fuel r c g2 L gm L2 → CandFails fuel r c g (i :: L) gm L2

/-- One recursive call of attempt: from the state on the left, attempt
calls attempt on the state on the right.  A pre-filled cell advances
with the same grid; an unknown cell reaches each recursive call through
a loop state whose current candidate passes the validity check. -/
inductive AttCall : Nat × Grid × Int × Int → Nat × Grid × Int × Int → Prop
  | filled {fuel : Nat} {g : Grid} {r c v : Int} :
      inBounds r c → gridGet g r c = some v → v ≠ 0 →
      AttCall (fuel + 1, g, r, c)
        (fuel, g, (nextPos r c).1, (nextPos r c).2)
  | cand {fuel : Nat} {g gm g1 : Grid} {r c i : Int} {L : List Int} :
      inBounds r c → gridGet g r c = some 0 →
      CandFails fuel r c g [1, 2, 3, 4, 5, 6, 7, 8, 9] gm (i :: L) →
      gridSet gm r c i = some g1 → isValid g1 r c = some true →
      AttCall (fuel + 1, g, r, c)
        (fuel, g1, (nextPos r c).1, (nextPos r c).2)

theorem candFails_set0 {fuel : Nat} {r c : Int} {g gm : Grid}
    {L L2 : List Int} (h : CandFails fuel r c g L gm L2) :
    gridSet gm r c 0 = gridSet g r c 0 := by
  induction h with
  | refl => rfl
  | skip hset hval hcf ih => rw [ih, gridSet_gridSet hset]
  | fail hset hval hatt hcf ih =>
      rw [ih, attempt_false _ _ _ _ _ hatt, gridSet_gridSet hset]

theorem candFails_wf {fuel : Nat} {r c : Int} {g gm : Grid}
    {L L2 : List Int} (h : CandFails fuel r c g L gm L2)
    (hw : wfGrid g) : wfGrid gm := by
  induction h with
  | refl => exact hw
  | skip hset hval hcf ih => exact ih ((gridSet_some hset).2.2.2 hw)
  | fail hset hval hatt hcf ih =>
      have hg2 := attempt_false _ _ _ _ _ hatt
      rw [hg2] at ih
      exact ih ((gridSet_some hset).2.2.2 hw)

theorem attCall_inv {s t : Nat × Grid × Int × Int} (h : AttCall s t)
    (hw : wfGrid s.2.1) (hc : Consistent s.2.1) :
    wfGrid t.2.1 ∧ Consistent t.2.1 := by
  cases h with
  | filled hb hv hnz => exact ⟨hw, hc⟩
  | cand hb hv hcf hset hval =>
      rename_i fuel g gm g1 r c i L
      have hrc9 : r.toNat < 9 ∧ c.toNat < 9 := by
        obtain ⟨a1, a2, a3, a4⟩ := hb
        omega
      obtain ⟨hbb, row, hrow, hx⟩ := gridGet_eq_some.mp hv
      have hclen : c.toNat < row.length := lt_length_of_get? hx
      have hgz : gridSet g r c 0 = some g := by
        have hex : gridSet g r c 0 =
            some (List.set g r.toNat (List.set row c.toNat 0)) :=
          gridSet_eq_some.mpr ⟨hbb, row, hrow, hclen, rfl⟩
        rw [hex, gridSet_cancel hv hex]
      have hsetm : gridSet gm r c 0 = some g := by
        rw [candFails_set0 hcf, hgz]
      have hwgm : wfGrid gm := candFails_wf hcf hw
      have hw1 : wfGrid g1 := (gridSet_some hset).2.2.2 hwgm
      have hup0 := (gridSet_some hsetm).2.1
      have heraseGm : ConsistentF (eraseAt (cellOf gm) r.toNat c.toNat) := by
        refine consistentF_congr (fun a b _ _ => ?_) hc
        unfold eraseAt
        rw [hup0 a b]
      have herase1 : ConsistentF (eraseAt (cellOf g1) r.toNat c.toNat) :=
        consistentF_congr (fun a b _ _ => (erase_after_set hset a b).symm)
          heraseGm
      have hnc : NoConflictAt g1 r.toNat c.toNat := by
        rw [isValid_wf hw1 hb] at hval
        exact of_decide_eq_true (Option.some_inj.mp hval)
      exact ⟨hw1, ks_main hrc9.1 hrc9.2 herase1 hnc⟩

theorem reach_inv {s0 s : Nat × Grid × Int × Int}
    (hreach : Relation.ReflTransGen AttCall s0 s)
    (hw : wfGrid s0.2.1) (hc : Consistent s0.2.1) :
    wfGrid s.2.1 ∧ Consistent s.2.1 := by
  induction hreach with
  | refl => exact ⟨hw, hc⟩
  | tail _ hstep ih => exact attCall_inv hstep ih.1 ih.2

/-! ## Concrete grids used in witnesses and counterexamples -/

/-- A complete, rule-valid Sudoku grid. -/
def cgValid : Grid :=
  [[1, 2, 3, 4, 5, 6, 7, 8, 9],
   [4, 5, 6, 7, 8, 9, 1, 2, 3],
   [7, 8, 9, 1, 2, 3, 4, 5, 6],
   [2, 3, 4, 5, 6, 7, 8, 9, 1],
   [5, 6, 7, 8, 9, 1, 2, 3, 4],
   [8, 9, 1, 2, 3, 4, 5, 6, 7],
   [3, 4, 5, 6, 7, 8, 9, 1, 2],
   [6, 7, 8, 9, 1, 2, 3, 4, 5],
   [9, 1, 2, 3, 4, 5, 6, 7, 8]]

/-- cgValid with cell (0, 0) changed to 2: the two leading cells of
row 0 hold the same value, so this fully-filled grid violates the
rules, while its final cell (8, 8) is conflict-free. -/
def cgDup : Grid := List.set cgValid 0 [2, 2, 3, 4, 5, 6, 7, 8, 9]

/-- cgValid with the final cell (8, 8) changed to 1, duplicating the 1
at (8, 1): a fully-filled grid whose final cell fails the check. -/
def cgStuck : Grid := List.set cgValid 8 [9, 1, 2, 3, 4, 5, 6, 7, 1]

/-- cgValid with cell (0, 0) erased to unknown: a puzzle with one
unknown cell whose unique completion is cgValid. -/
def cgOne : Grid := List.set cgValid 0 [0, 2, 3, 4, 5, 6, 7, 8, 9]

/-- cgValid with cell (0, 0) changed to 5: cell (1, 1) = 5 now has a
duplicate at a diagonal offset inside its sub-block. -/
def cgDiag : Grid := List.set cgValid 0 [5, 2, 3, 4, 5, 6, 7, 8, 9]

theorem cgValid_wf : wfGrid cgValid := by decide

theorem cgDup_wf : wfGrid cgDup := by decide

theorem cgStuck_wf : wfGrid cgStuck := by decide

theorem cgOne_wf : wfGrid cgOne := by decide

theorem cgDiag_wf : wfGrid cgDiag := by decide

theorem cgValid_consistent : Consistent cgValid := by decide

theorem cgDup_inconsistent : ¬ Consistent cgDup := by decide

theorem cgOne_solve : solve cgOne = some (true, cgValid) := by decide

theorem cgDup_solve : solve cgDup = some (true, cgDup) := by decide

theorem cgStuck_solve : solve cgStuck = some (false, cgStuck) := by decide

theorem posIdx00 : posIdx 0 0 = 0 := by decide

/-! ## Claim-level definitions -/

/-- h2 is a valid completion of the puzzle g: a well-formed grid, fully
filled with values 1..9, pairwise rule-consistent, agreeing with g on
every given (non-zero) cell of g. -/
def Completion (g h2 : Grid) : Prop :=
  wfGrid h2 ∧
  (∀ i, i < 9 → ∀ j, j < 9 → 1 ≤ cellOf h2 i j ∧ cellOf h2 i j ≤ 9) ∧
  Consistent h2 ∧
  (∀ i, i < 9 → ∀ j, j < 9 → cellOf g i j ≠ 0 → cellOf h2 i j = cellOf g i j)

instance (g h2 : Grid) : Decidable (Completion g h2) := by
  unfold Completion
  infer_instance

/-- g1 is at most g2 in the row-major lexicographic order on the 81
cell values. -/
def LexLeGrid (g1 g2 : Grid) : Prop :=
  LexLeFrom 0 (cellOf g1) (cellOf g2)

/-! ## Claims -/

/-- Claim C1, counterexample to the claim as stated: cgDup is a 9 x 9
grid on which solve returns true, yet the resulting grid (the
unchanged cgDup) does not have every value exactly once in every row:
value 2 appears at both (0, 0) and (0, 1). -/
theorem C1_counterexample :
    wfGrid cgDup ∧ solve cgDup = some (true, cgDup) ∧ ¬ SolvedGrid cgDup := by
  refine ⟨cgDup_wf, cgDup_solve, ?_⟩
  rintro ⟨hrange, hrows, _, _⟩
  obtain ⟨j, hj9, hjv, huniq⟩ := hrows 0 (by omega) 2 (by omega) (by omega)
  have h0 := huniq 0 (by omega) (by decide)
  have h1 := huniq 1 (by omega) (by decide)
  omega

/-- Claim C1 (amended): for every 9 x 9 input grid whose cells all lie
in 0..9 and whose filled cells are pairwise rule-consistent, if
solve(puzzle) returns true then the resulting grid is completely
filled and rule-valid: every row, every column, and every 3 x 3
sub-block contains each value in 1..9 exactly once. -/
theorem C1_solve_true_solved : ∀ (g g2 : Grid), wfGrid g →
    (∀ i, i < 9 → ∀ j, j < 9 → 0 ≤ cellOf g i j ∧ cellOf g i j ≤ 9) →
    Consistent g →
    solve g = some (true, g2) → SolvedGrid g2 := by
  intro g g2 hw hrange hcons hsolve
  have hsolve2 : attempt solveFuel g 0 0 = some (true, g2) := hsolve
  have hfillall := attempt_fill solveFuel g 0 0 g2 hsolve2
  rw [posIdx00] at hfillall
  have hframe := attempt_frame solveFuel g 0 0 true g2 hsolve2
  have hcons2 : Consistent g2 :=
    attempt_consistent solveFuel g 0 0 true g2 hsolve2 hw hcons
  refine solvedGrid_of_range_consistent ?_ hcons2
  intro i hi j hj
  by_cases hch : cellOf g2 i j = cellOf g i j
  · have hnz := hfillall i j hi hj (by omega)
    have hr := hrange i hi j hj
    rw [hch] at hnz ⊢
    omega
  · obtain ⟨_, _, _, _, h1, h2⟩ := hframe i j hch
    exact ⟨h1, h2⟩

/-- Witness for the amended claim C1 at the one-unknown puzzle cgOne,
whose solution is cgValid. -/
theorem C1_witness : SolvedGrid cgValid :=
  C1_solve_true_solved cgOne cgValid cgOne_wf (by decide) (by decide)
    cgOne_solve

/-- Claim C2, counterexample to the claim as stated: cgDup has no
empty cell and a rule violation (the value 2 is repeated in row 0),
yet solve returns true, not false. -/
theorem C2_counterexample :
    wfGrid cgDup ∧
    (∀ i, i < 9 → ∀ j, j < 9 → cellOf cgDup i j ≠ 0) ∧
    cellOf cgDup 0 0 = cellOf cgDup 0 1 ∧
    solve cgDup = some (true, cgDup) := by
  refine ⟨cgDup_wf, by decide, by decide, cgDup_solve⟩

/-- Claim C2 (amended): on a 9 x 9 grid with no empty cell, solve
returns the validity status of the final cell (8, 8) only, with the
grid unchanged: it returns false exactly when the value of (8, 8) has
a duplicate in row 8, column 8, or its sub-block; a rule violation not
involving cell (8, 8) is not detected and solve returns true. -/
theorem C2_full_grid_final_cell_only : ∀ g : Grid, wfGrid g →
    (∀ i, i < 9 → ∀ j, j < 9 → cellOf g i j ≠ 0) →
    solve g = some (decide (NoConflictAt g 8 8), g) := by
  intro g hw hfull
  have h1 := attempt_filled solveFuel g 0 0 hw (by rw [posIdx00]; decide)
    (fun i j hi hj _ => hfull i hi j hj)
  have h2 : solve g = (isValid g 8 8).map (fun b => (b, g)) := h1
  rw [h2, isValid_wf hw inBounds88]
  rfl

/-- Witness for the amended claim C2 at cgStuck, a full grid whose
final cell conflicts, so the computed status is false. -/
theorem C2_witness : solve cgStuck =
    some (decide (NoConflictAt cgStuck 8 8), cgStuck) :=
  C2_full_grid_final_cell_only cgStuck cgStuck_wf (by decide)

/-- Claim C3: for every input grid, if solve returns false then the
grid after the call is identical to the grid before the call: every
tentative assignment has been retracted. -/
theorem C3_failure_restores : ∀ (g g2 : Grid),
    solve g = some (false, g2) → g2 = g := by
  intro g g2 h
  exact attempt_false solveFuel g 0 0 g2 h

/-- Witness for claim C3 at cgStuck, on which solve fails and returns
the input grid itself. -/
theorem C3_witness : solve cgStuck = some (false, cgStuck) ∧
    cgStuck = cgStuck :=
  ⟨cgStuck_solve, C3_failure_restores cgStuck cgStuck cgStuck_solve⟩

theorem attempt_oob (fuel : Nat) (g : Grid) (r c : Int) (hw : wfGrid g)
    (hnb : ¬ inBounds r c) :
    attempt (fuel + 1) g r c = some (decide (NoConflictAt g 8 8), g) := by
  simp only [attempt]
  rw [if_neg hnb, isValid_wf hw inBounds88]
  rfl

/-- Claim C4: for every well-formed grid and every out-of-bounds
position (r, c), attempt(puzzle, r, c) returns true exactly when the
final cell (8, 8) currently has no row, column or sub-block duplicate,
and false otherwise, leaving the grid unchanged. -/
theorem C4_out_of_bounds : ∀ (g : Grid) (r c : Int), wfGrid g →
    ¬ inBounds r c →
    attemptMain g r c = some (decide (NoConflictAt g 8 8), g) := by
  intro g r c hw hnb
  exact attempt_oob 99 g r c hw hnb

/-- Witness for claim C4 at the out-of-bounds position (9, 0) on
cgValid. -/
theorem C4_witness : ¬ inBounds 9 0 ∧
    attemptMain cgValid 9 0 = some (decide (NoConflictAt cgValid 8 8), cgValid) :=
  ⟨by decide, C4_out_of_bounds cgValid 9 0 cgValid_wf (by decide)⟩

/-- Claim C5: for every well-formed grid and in-bounds cell (r, c),
isDuplSubGrid returns true exactly when some cell of the same 3 x 3
sub-block differing from (r, c) in both its row and its column holds
the value of (r, c); block cells aligned with (r, c), including (r, c)
itself, never produce a duplicate report from this function. -/
theorem C5_subgrid_iff : ∀ (g : Grid) (r c : Int), wfGrid g →
    inBounds r c →
    (isDuplSubGrid g r c = some true ↔ ∃ i2, i2 < 9 ∧ ∃ j2, j2 < 9 ∧
      i2 / 3 = r.toNat / 3 ∧ j2 / 3 = c.toNat / 3 ∧
      i2 ≠ r.toNat ∧ j2 ≠ c.toNat ∧
      cellOf g i2 j2 = cellOf g r.toNat c.toNat) := by
  intro g r c hw hb
  rw [isDuplSubGrid_wf hw hb]
  constructor
  · intro h
    exact of_decide_eq_true (Option.some_inj.mp h)
  · intro h
    rw [decide_eq_true h]

/-- Witness for claim C5 at cell (1, 1) of cgDiag, where the value 5
is duplicated at the diagonal offset (0, 0) of the same sub-block. -/
theorem C5_witness :
    isDuplSubGrid cgDiag 1 1 = some true ↔ ∃ i2, i2 < 9 ∧ ∃ j2, j2 < 9 ∧
      i2 / 3 = (1 : Int).toNat / 3 ∧ j2 / 3 = (1 : Int).toNat / 3 ∧
      i2 ≠ (1 : Int).toNat ∧ j2 ≠ (1 : Int).toNat ∧
      cellOf cgDiag i2 j2 = cellOf cgDiag (1 : Int).toNat (1 : Int).toNat :=
  C5_subgrid_iff cgDiag 1 1 cgDiag_wf (by decide)

/-- Claim C6: a cell that is non-zero in the input (a given clue)
holds the same value after solve returns, whether solve succeeds or
fails: the search never overwrites a pre-filled cell. -/
theorem C6_givens_preserved : ∀ (g : Grid) (s : Bool) (g2 : Grid),
    solve g = some (s, g2) →
    ∀ i j : Nat, cellOf g i j ≠ 0 → cellOf g2 i j = cellOf g i j := by
  intro g s g2 h i j hnz
  by_cases hch : cellOf g2 i j = cellOf g i j
  · exact hch
  · obtain ⟨_, _, _, h0, _, _⟩ := attempt_frame solveFuel g 0 0 s g2 h i j hch
    exact absurd h0 hnz

/-- Witness for claim C6: the given clue at (0, 1) of cgOne survives a
successful solve. -/
theorem C6_witness : cellOf cgOne 0 1 ≠ 0 ∧
    cellOf cgValid 0 1 = cellOf cgOne 0 1 :=
  ⟨by decide, C6_givens_preserved cgOne true cgValid cgOne_solve 0 1 (by decide)⟩

/-- Claim C7: solve is a function of the input grid, so identical
inputs give identical results, and whenever the input puzzle has a
valid completion, solve succeeds and its output is a valid completion
that is lexicographically at most every valid completion in row-major
cell order: candidates are tried in ascending order 1..9 and the first
satisfying complete assignment in depth-first order is returned. -/
theorem C7_lex_smallest : ∀ (g h2 : Grid), wfGrid g → Completion g h2 →
    ∃ g2, solve g = some (true, g2) ∧ Completion g g2 ∧
      ∀ h3, Completion g h3 → LexLeGrid g2 h3 := by
  intro g h2 hw hcomp
  obtain ⟨hwh, hrangeh, hconsh, hagreeh⟩ := hcomp
  have hconsg : Consistent g := by
    intro i1 h1 j1 h2x i2 h3 j2 h4 hne hsu hz1 hz2
    rw [← hagreeh i1 h1 j1 h2x hz1, ← hagreeh i2 h3 j2 h4 hz2]
    exact hconsh i1 h1 j1 h2x i2 h3 j2 h4 hne hsu
      (by rw [hagreeh i1 h1 j1 h2x hz1]; exact hz1)
      (by rw [hagreeh i2 h3 j2 h4 hz2]; exact hz2)
  have happ : ∀ h3 : Grid, Completion g h3 →
      ∃ g2, attempt solveFuel g 0 0 = some (true, g2) ∧
        LexLeFrom 0 (cellOf g2) (cellOf h3) := by
    intro h3 hcomp3
    obtain ⟨hw3, hr3, hc3, ha3⟩ := hcomp3
    have happ2 := attempt_complete solveFuel g 0 0 (cellOf h3) hw
      (by rw [posIdx00]; decide)
      (fun i j hi hj hlt => absurd hlt (by rw [posIdx00]; omega))
      hconsg
      (fun i j hi hj hnz => ha3 i hi j hj hnz)
      (fun i j hi hj => hr3 i hi j hj)
      hc3
    rw [posIdx00] at happ2
    exact happ2
  obtain ⟨g2, hsolve, hlex2⟩ := happ h2 ⟨hwh, hrangeh, hconsh, hagreeh⟩
  have hrangeg : ∀ i, i < 9 → ∀ j, j < 9 →
      0 ≤ cellOf g i j ∧ cellOf g i j ≤ 9 := by
    intro i hi j hj
    by_cases hz : cellOf g i j = 0
    · rw [hz]
      omega
    · rw [← hagreeh i hi j hj hz]
      have := hrangeh i hi j hj
      omega
  refine ⟨g2, hsolve, ?_, ?_⟩
  · have hw2 : wfGrid g2 := attempt_wf solveFuel g 0 0 true g2 hsolve hw
    have hcons2 : Consistent g2 :=
      attempt_consistent solveFuel g 0 0 true g2 hsolve hw hconsg
    have hfill2 := attempt_fill solveFuel g 0 0 g2 hsolve
    rw [posIdx00] at hfill2
    have hframe := attempt_frame solveFuel g 0 0 true g2 hsolve
    refine ⟨hw2, ?_, hcons2, ?_⟩
    · intro i hi j hj
      by_cases hch : cellOf g2 i j = cellOf g i j
      · have hnz := hfill2 i j hi hj (by omega)
        have hr := hrangeg i hi j hj
        rw [hch] at hnz ⊢
        omega
      · obtain ⟨_, _, _, _, h1, h2⟩ := hframe i j hch
        exact ⟨h1, h2⟩
    · intro i hi j hj hnz
      by_cases hch : cellOf g2 i j = cellOf g i j
      · exact hch
      · obtain ⟨_, _, _, h0, _, _⟩ := hframe i j hch
        exact absurd h0 hnz
  · intro h3 hcomp3
    obtain ⟨g3, hsolve3, hlex3⟩ := happ h3 hcomp3
    have heq : g2 = g3 := (someResult_eq (hsolve.symm.trans hsolve3)).2
    unfold LexLeGrid
    rw [heq]
    exact hlex3

/-- Witness for claim C7 at the one-unknown puzzle cgOne with its
completion cgValid. -/
theorem C7_witness : ∃ g2, solve cgOne = some (true, g2) ∧
    Completion cgOne g2 ∧ ∀ h3, Completion cgOne h3 → LexLeGrid g2 h3 :=
  C7_lex_smallest cgOne cgValid cgOne_wf (by decide)

/-- Claim C8: a fully-filled, globally rule-consistent, well-formed
grid makes solve return true with the grid unchanged; and re-running
solve on the output of any successful solve of a well-formed grid
returns true again with that output unchanged (idempotence). -/
theorem C8_idempotent :
    (∀ g : Grid, wfGrid g →
      (∀ i, i < 9 → ∀ j, j < 9 → cellOf g i j ≠ 0) → Consistent g →
      solve g = some (true, g)) ∧
    (∀ g g2 : Grid, wfGrid g → solve g = some (true, g2) →
      solve g2 = some (true, g2)) := by
  constructor
  · intro g hw hfull hcons
    have h1 := attempt_filled solveFuel g 0 0 hw (by rw [posIdx00]; decide)
      (fun i j hi hj _ => hfull i hi j hj)
    have hnc : NoConflictAt g 8 8 := by
      intro i2 hi2 j2 hj2 hne hsu
      exact hcons i2 hi2 j2 hj2 8 (by omega) 8 (by omega) hne
        (sameUnit_symm hsu) (hfull i2 hi2 j2 hj2)
        (hfull 8 (by omega) 8 (by omega))
    have h2 : solve g = (isValid g 8 8).map (fun b => (b, g)) := h1
    rw [h2, isValid_wf hw inBounds88,
      show decide (NoConflictAt g (8 : Int).toNat (8 : Int).toNat) = true
        from decide_eq_true hnc]
    rfl
  · intro g g2 hw hsolve
    have hsolve2 : attempt solveFuel g 0 0 = some (true, g2) := hsolve
    have hw2 : wfGrid g2 := attempt_wf solveFuel g 0 0 true g2 hsolve2 hw
    have hfill2 := attempt_fill solveFuel g 0 0 g2 hsolve2
    rw [posIdx00] at hfill2
    have hval2 : isValid g2 8 8 = some true :=
      attempt_final solveFuel g 0 0 g2 hsolve2
    have h1 := attempt_filled solveFuel g2 0 0 hw2 (by rw [posIdx00]; decide)
      (fun i j hi hj _ => hfill2 i j hi hj (by omega))
    have h2 : solve g2 = (isValid g2 8 8).map (fun b => (b, g2)) := h1
    rw [h2, hval2]
    rfl

/-- Witness for claim C8: the first part at the full valid grid
cgValid, the second at the successful solve of cgOne. -/
theorem C8_witness : solve cgValid = some (true, cgValid) ∧
    solve cgValid = some (true, cgValid) :=
  ⟨C8_idempotent.1 cgValid cgValid_wf (by decide) cgValid_consistent,
   C8_idempotent.2 cgOne cgValid cgOne_wf cgOne_solve⟩

/-- Claim C9, counterexample to the claim as stated: the initial call
attempt(puzzle, 0, 0) issued by solve is reachable for every input,
and on the input cgDup its grid has two equal filled cells in row 0,
so not every reachable call satisfies the filled-cell uniqueness
invariant on arbitrary inputs. -/
theorem C9_counterexample :
    Relation.ReflTransGen AttCall (solveFuel, cgDup, 0, 0)
      (solveFuel, cgDup, 0, 0) ∧ ¬ Consistent cgDup :=
  ⟨Relation.ReflTransGen.refl, cgDup_inconsistent⟩

/-- Claim C9 (amended): for every well-formed input grid whose filled
cells are pairwise rule-consistent, every recursive call of attempt
reachable from solve(puzzle) carries a grid whose filled cells are
pairwise rule-consistent in rows, columns and sub-blocks. -/
theorem C9_reachable_consistent : ∀ g0 : Grid, wfGrid g0 → Consistent g0 →
    ∀ (fuel2 : Nat) (g : Grid) (r c : Int),
      Relation.ReflTransGen AttCall (solveFuel, g0, 0, 0) (fuel2, g, r, c) →
      Consistent g := by
  intro g0 hw hc fuel2 g r c hreach
  exact (reach_inv hreach hw hc).2

/-- Witness for the amended claim C9 at the root call on cgValid. -/
theorem C9_witness : Consistent cgValid :=
  C9_reachable_consistent cgValid cgValid_wf cgValid_consistent
    solveFuel cgValid 0 0 Relation.ReflTransGen.refl

/-- Claim C10: on a well-formed 9 x 9 grid every grid access in the
call tree of solve is in range, so in this Option-valued embedding the
error value none is never produced: attempt with the fuel solve uses
returns a value for every start position, and so does solve. -/
theorem C10_no_out_of_bounds : ∀ (g : Grid) (r c : Int), wfGrid g →
    (attemptMain g r c).isSome ∧ (solve g).isSome := by
  intro g r c hw
  constructor
  · refine attempt_isSome solveFuel g r c hw ?_
    have := posIdx_le r c
    show 82 - posIdx r c ≤ 100
    omega
  · refine attempt_isSome solveFuel g 0 0 hw ?_
    rw [posIdx00]
    decide

/-- Witness for claim C10 at cgValid and the start position. -/
theorem C10_witness : (attemptMain cgValid 0 0).isSome ∧
    (solve cgValid).isSome :=
  C10_no_out_of_bounds cgValid 0 0 cgValid_wf
